import Mathlib

/-!
# jira2things3: reconciliation of Jira issues with a Things3 project

A shallow embedding of `main.go`.  Go strings and AppleScript texts are lists of
characters.  The AppleScript programs that `main.go` hands to `osascript` are
embedded as pure functions over the to-dos of the configured project; the text
comparisons of AppleScript (`contains`, `offset of`) are taken as exact substring
search, and the key interpolated into a script is taken as literal text.
Things3 keeps the to-dos of the project in a list and puts a new to-do at its
end.  External calls (`osascript`, `open`, the Jira client) may fail; the
messages written with `log.Printf` are left out.
-/

namespace Jira2Things

/-- Go strings and AppleScript texts. -/
abbrev Str := List Char

/-- The marker written in front of the issue key, `"JIRA-ID: "`. -/
def MARKER : Str := "JIRA-ID: ".toList

/-- Cut `s` around the first occurrence of `pat`: the text before it and the
text after it (Go `strings.Cut`; AppleScript `offset of pat in s`). -/
def cut (pat : Str) : Str → Option (Str × Str)
  | [] => if pat = [] then some ([], []) else none
  | c :: cs =>
    if pat.isPrefixOf (c :: cs) then some ([], (c :: cs).drop pat.length)
    else (cut pat cs).map (fun r => (c :: r.1, r.2))

/-- AppleScript `s contains pat`, Go `strings.Contains`. -/
def contains (s pat : Str) : Bool := (cut pat s).isSome

/-- The notes that `createThingsTodo` stores:
`fmt.Sprintf("%s\n\nJIRA-ID: %s", notes, jiraKey)`. -/
def annotate (notes jiraKey : Str) : Str :=
  notes ++ "\n\nJIRA-ID: ".toList ++ jiraKey

/-- The key the listing scripts read from a to-do's notes:
`if noteText contains "JIRA-ID: "` then
`text ((offset of "JIRA-ID: " in noteText) + 9) thru -1 of noteText`. -/
def extractKey (noteText : Str) : Option Str :=
  (cut MARKER noteText).map (fun r => r.2)

/-- Go `unicode.IsSpace`: the white space that `strings.TrimSpace` removes. -/
def isSpace (c : Char) : Bool :=
  c = '\t' || c = '\n' || c.toNat = 0x0B || c.toNat = 0x0C || c = '\r' || c = ' ' ||
  c.toNat = 0x85 || c.toNat = 0xA0 || c.toNat = 0x1680 ||
  (0x2000 ≤ c.toNat && c.toNat ≤ 0x200A) ||
  c.toNat = 0x2028 || c.toNat = 0x2029 || c.toNat = 0x202F || c.toNat = 0x205F ||
  c.toNat = 0x3000

/-- Go `strings.TrimSpace`. -/
def trimSpace (s : Str) : Str := (s.dropWhile isSpace).rdropWhile isSpace

/-- The loop of Go `strings.Split` (`genSplit`): cut at the first separator at
most `n` times. -/
def splitLoop (sep : Str) : Nat → Str → List Str
  | 0, s => [s]
  | n + 1, s =>
    match cut sep s with
    | none => [s]
    | some (a, b) => a :: splitLoop sep n b

/-- Go `strings.Split(s, sep)` for a non-empty separator; `genSplit` caps the
number of pieces at `len(s) + 1`, so at most `len(s)` cuts are made. -/
def split (s sep : Str) : List Str := splitLoop sep s.length s

/-- Go `strings.Join`. -/
def join (elems : List Str) (sep : Str) : Str :=
  match elems with
  | [] => []
  | [a] => a
  | a :: b :: rest => a ++ sep ++ join (b :: rest) sep

/-- Go `strings.ReplaceAll(s, old, new)` for a non-empty `old`. -/
def replaceAll (s old new : Str) : Str := join (split s old) new

end Jira2Things

namespace Jira2Things

/-- The UTF-8 bytes of a character. -/
def utf8Bytes (c : Char) : List Nat :=
  if c.toNat < 0x80 then [c.toNat]
  else if c.toNat < 0x800 then [0xC0 + c.toNat / 0x40, 0x80 + c.toNat % 0x40]
  else if c.toNat < 0x10000 then
    [0xE0 + c.toNat / 0x1000, 0x80 + c.toNat / 0x40 % 0x40, 0x80 + c.toNat % 0x40]
  else
    [0xF0 + c.toNat / 0x40000, 0x80 + c.toNat / 0x1000 % 0x40,
      0x80 + c.toNat / 0x40 % 0x40, 0x80 + c.toNat % 0x40]

/-- The bytes of a Go string. -/
def goBytes (s : Str) : List Nat := s.flatMap utf8Bytes

/-- Go `shouldEscape(c, encodeQueryComponent)`: every byte but the letters and
digits of ASCII and `-`, `_`, `.`, `~`. -/
def shouldEscape (b : Nat) : Bool :=
  !((97 ≤ b && b ≤ 122) || (65 ≤ b && b ≤ 90) || (48 ≤ b && b ≤ 57) ||
    b = 45 || b = 95 || b = 46 || b = 126)

/-- Go `upperhex[n]`. -/
def upperhex (n : Nat) : Char := "0123456789ABCDEF".toList.getD n '0'

/-- What Go `url.QueryEscape` writes for one byte: `+` for a space, `%XY` for a
byte to escape, the byte itself otherwise. -/
def escapeByte (b : Nat) : Str :=
  if b = 32 then ['+']
  else if shouldEscape b then ['%', upperhex (b / 16), upperhex (b % 16)]
  else [Char.ofNat b]

/-- Go `url.QueryEscape`. -/
def queryEscape (s : Str) : Str := (goBytes s).flatMap escapeByte

/-- The order of Go strings. -/
def strLE : Str → Str → Bool
  | [], _ => true
  | _ :: _, [] => false
  | a :: as, b :: bs => a.toNat < b.toNat || (a = b && strLE as bs)

/-- Go `url.Values.Encode` for values with one entry per key: the keys sorted,
`key=value` with both escaped, joined by `&`. -/
def valuesEncode (v : List (Str × Str)) : Str :=
  join ((v.insertionSort (fun a b => strLE a.1 b.1 = true)).map
    (fun kv => queryEscape kv.1 ++ ['='] ++ queryEscape kv.2)) ['&']

/-- The URL that `createThingsTodo` hands to `open`. -/
def thingsURL (title notes jiraKey project : Str) : Str :=
  "things:///add?".toList ++
    replaceAll (valuesEncode [("title".toList, title),
      ("notes".toList, annotate notes jiraKey), ("list".toList, project)])
      ['+'] "%20".toList

/-- The value of a hexadecimal digit. -/
def unhex (c : Char) : Option Nat :=
  if 48 ≤ c.toNat ∧ c.toNat ≤ 57 then some (c.toNat - 48)
  else if 65 ≤ c.toNat ∧ c.toNat ≤ 70 then some (c.toNat - 55)
  else if 97 ≤ c.toNat ∧ c.toNat ≤ 102 then some (c.toNat - 87)
  else none

/-- Percent-decoding, as the reader of the URL does it: `%XY` is the byte with
the hexadecimal digits `X` and `Y`, every other character stands for its own
bytes. -/
def percentDecode : Str → Option (List Nat)
  | [] => some []
  | c :: rest =>
    if c = '%' then
      match rest with
      | x :: y :: rest' =>
        match unhex x, unhex y, percentDecode rest' with
        | some h, some l, some bs => some ((h * 16 + l) :: bs)
        | _, _, _ => none
      | _ => none
    else (percentDecode rest).map (fun bs => utf8Bytes c ++ bs)

/-- The value of a parameter in a query: the query is cut at every `&`, and the
value is what follows `name=` in the first piece that starts so. -/
def queryParam (name query : Str) : Option Str :=
  ((split query ['&']).find? (fun p => (name ++ ['=']).isPrefixOf p)).map
    (fun p => p.drop (name.length + 1))

/-- What replacing every `+` by `%20` makes of one character. -/
def plusTo20 (c : Char) : Str := if c = '+' then "%20".toList else [c]

end Jira2Things

namespace Jira2Things

/-- A to-do of the configured Things3 project. -/
structure Task where
  title : Str
  notes : Str
  completed : Bool
  deriving DecidableEq, Repr

/-- A Jira issue: `Key`, `Fields.Summary`, `Fields.Description` and the e-mail
address of `Fields.Assignee`, when there is one. -/
structure Issue where
  key : Str
  summary : Str
  description : Str
  assignee : Option Str
  deriving DecidableEq, Repr

/-- The configuration read by `loadConfig`. -/
structure Config where
  jiraURL : Str
  jiraUsername : Str
  jiraToken : Str
  thingsProject : Str
  deriving DecidableEq, Repr

/-- The existence script of `createThingsTodo`: `"true"` when the notes of some
to-do contain `"JIRA-ID: " ++ jiraKey`, whatever its status. -/
def existsScript (todos : List Task) (jiraKey : Str) : Str :=
  if todos.any (fun t => contains t.notes (MARKER ++ jiraKey)) then "true".toList
  else "false".toList

/-- The script of `markThingsTodoCompleted`: the first to-do whose notes contain
`"JIRA-ID: " ++ jiraKey` gets status completed and the script returns `"true"`;
without such a to-do it returns `"false"`. -/
def completeScript (jiraKey : Str) : List Task → List Task × Str
  | [] => ([], "false".toList)
  | t :: ts =>
    if contains t.notes (MARKER ++ jiraKey) then
      ({ t with completed := true } :: ts, "true".toList)
    else (t :: (completeScript jiraKey ts).1, (completeScript jiraKey ts).2)

/-- The listing script of `syncJiraToThings`: the keys of the to-dos that are
not completed and whose notes contain the marker. -/
def openKeysScript (todos : List Task) : List Str :=
  todos.filterMap (fun t => if t.completed then none else extractKey t.notes)

/-- The listing script of `syncThingsToJira`: the same over completed to-dos. -/
def completedKeysScript (todos : List Task) : List Str :=
  todos.filterMap (fun t => if t.completed then extractKey t.notes else none)

/-- What `osascript` prints for a text result; `newline` tells whether the
reply ends with a line feed. -/
def osascriptText (newline : Bool) (s : Str) : Str :=
  s ++ (if newline then ['\n'] else [])

/-- What `osascript` prints for a list of texts: the items joined by `", "`. -/
def osascriptList (newline : Bool) (items : List Str) : Str :=
  osascriptText newline (join items ", ".toList)

/-- The external calls made by the two passes. -/
inductive Call where
  | listOpen
  | search
  | check (jiraKey : Str)
  | openURL (url : Str)
  | complete (jiraKey : Str)
  | listCompleted
  | getIssue (jiraKey : Str)
  | update (jiraKey : Str)
  deriving DecidableEq, Repr

/-- The surroundings of a run: whether `osascript` ends its reply with a line
feed, which external calls fail (`fails n c`: call `c`, issued after `n`
earlier calls, returns an error), and which issue a Jira request is about:
go-jira writes the key unescaped into the path `rest/api/2/issue/<key>`, and
`addressed key` is the key of the issue that the server takes this request to
name. -/
structure Env where
  newline : Bool
  fails : Nat → Call → Bool
  addressed : Str → Str

/-- The two stores and the calls issued so far. -/
structure World where
  todos : List Task
  issues : Str → Option Issue
  trace : List Call

/-- A Go `error` value; `none` is `nil`. -/
abbrev GoError := Option String

/-- Issue an external call: record it and tell whether it failed. -/
def extCall (env : Env) (c : Call) (w : World) : Bool × World :=
  (env.fails w.trace.length c, { w with trace := w.trace ++ [c] })

/-- Go `createThingsTodo`; `project` is the value of `THINGS_PROJECT`, which
`loadConfig` stores in the configuration as well.  The `open` of the URL makes
Things3 append a to-do with the title and the notes that the URL carries to
that project; the URL carries both unchanged, as is proved of `thingsURL`. -/
def createThingsTodo (env : Env) (project title notes jiraKey : Str) (w : World) :
    GoError × World :=
  let r := extCall env (Call.check jiraKey) w
  if r.1 then (some "failed to check for existing todo", r.2)
  else if trimSpace (osascriptText env.newline (existsScript r.2.todos jiraKey))
      = "true".toList then (none, r.2)
  else
    let r2 := extCall env (Call.openURL (thingsURL title notes jiraKey project)) r.2
    if r2.1 then (some "open: exit status 1", r2.2)
    else (none, { r2.2 with
      todos := r2.2.todos ++ [⟨title, annotate notes jiraKey, false⟩] })

/-- Go `markThingsTodoCompleted`. -/
def markThingsTodoCompleted (env : Env) (jiraKey : Str) (w : World) :
    GoError × World :=
  let r := extCall env (Call.complete jiraKey) w
  if r.1 then (some "failed to mark todo as completed", r.2)
  else (none, { r.2 with todos := (completeScript jiraKey r.2.todos).1 })

/-- The parsing of a listing reply in both passes: nothing for empty output,
else `strings.Split(strings.TrimSpace(string(output)), ", ")`. -/
def parseKeys (output : Str) : List Str :=
  if output.length > 0 then split (trimSpace output) ", ".toList else []

/-- The title given to the to-do of an issue, `"[%s] %s"`. -/
def issueTitle (issue : Issue) : Str :=
  "[".toList ++ issue.key ++ "] ".toList ++ issue.summary

/-- The notes given to the to-do of an issue, `"Jira Issue: %s/browse/%s\n\n%s"`. -/
def issueNotes (config : Config) (issue : Issue) : Str :=
  "Jira Issue: ".toList ++ config.jiraURL ++ "/browse/".toList ++ issue.key ++
    "\n\n".toList ++ issue.description

/-- The first loop of `syncJiraToThings`, one issue. -/
def pullIssue (env : Env) (config : Config) (existing : List Str) (w : World)
    (issue : Issue) : World :=
  if issue.key ∈ existing then w
  else (createThingsTodo env config.thingsProject (issueTitle issue)
    (issueNotes config issue) issue.key w).2

/-- The second loop of `syncJiraToThings`, one key of `existingJiraKeys`. -/
def pullStale (env : Env) (current : List Str) (w : World) (jiraKey : Str) : World :=
  if jiraKey ∈ current then w else (markThingsTodoCompleted env jiraKey w).2

/-- Go `syncJiraToThings`.  `issues` is the reply of the search; `order` is the
order in which Go ranges over the keys of the map `existingJiraKeys`. -/
def syncJiraToThings (env : Env) (order : List Str → List Str) (config : Config)
    (issues : List Issue) (w : World) : GoError × World :=
  let r := extCall env Call.listOpen w
  if r.1 then (some "failed to get todos from Things3", r.2)
  else
    let existing := parseKeys (osascriptList env.newline (openKeysScript r.2.todos))
    let r2 := extCall env Call.search r.2
    if r2.1 then (some "failed to search issues", r2.2)
    else
      let w3 := issues.foldl (pullIssue env config existing) r2.2
      (none, (order existing.dedup).foldl (pullStale env (issues.map Issue.key)) w3)

/-- The loop body of `syncThingsToJira`.  `Issue.Get` and `Issue.Update` send
their request for `rest/api/2/issue/<jiraKey>`, so both are about the issue
`env.addressed jiraKey`.  A request that names no issue makes `Issue.Get` fail;
a successful `Issue.Update` clears the assignee of the issue. -/
def pushKey (env : Env) (config : Config) (w : World) (jiraKey : Str) : World :=
  if jiraKey = [] then w
  else
    let r := extCall env (Call.getIssue jiraKey) w
    if r.1 then r.2
    else
      match r.2.issues (env.addressed jiraKey) with
      | none => r.2
      | some issue =>
        if issue.assignee = some config.jiraUsername then
          let r2 := extCall env (Call.update jiraKey) r.2
          if r2.1 then r2.2
          else { r2.2 with issues := fun k =>
            if k = env.addressed jiraKey then some { issue with assignee := none }
            else r2.2.issues k }
        else r.2

/-- Go `syncThingsToJira`. -/
def syncThingsToJira (env : Env) (config : Config) (w : World) : GoError × World :=
  let r := extCall env Call.listCompleted w
  if r.1 then (some "failed to get completed todos from Things3", r.2)
  else
    (none, (parseKeys (osascriptList env.newline (completedKeysScript r.2.todos))).foldl
      (pushKey env config) r.2)

/-- What Go `url.Parse` keeps in the path of `rest/api/2/issue/<key>` of the
key: the text in front of the first `?` or `#`, the rest being query or
fragment. -/
def requestKey (jiraKey : Str) : Str :=
  jiraKey.takeWhile (fun c => c != '?' && c != '#')

/-- Surroundings in which no external call fails; a Jira request is about the
issue that the path of its URL names. -/
def noFail (newline : Bool) : Env := ⟨newline, fun _ _ => false, requestKey⟩

end Jira2Things

namespace Jira2Things

/-- `completeTaskByKey` as the specification words it: the first to-do that is
not completed and whose notes contain the annotation becomes completed, and the
result tells whether there was one. -/
def specCompleteTaskByKey (jiraKey : Str) : List Task → List Task × Bool
  | [] => ([], false)
  | t :: ts =>
    if !t.completed && contains t.notes (MARKER ++ jiraKey) then
      ({ t with completed := true } :: ts, true)
    else (t :: (specCompleteTaskByKey jiraKey ts).1, (specCompleteTaskByKey jiraKey ts).2)

/-- A world with the given to-dos, no Jira issue and no call issued yet. -/
def localWorld (todos : List Task) : World := ⟨todos, fun _ => none, []⟩

end Jira2Things

namespace Jira2Things

/-- A configuration for the scenarios. -/
def demoConfig : Config :=
  ⟨"https://jira.example.com".toList, "me@example.com".toList, "token".toList,
    "Work".toList⟩

/-- An issue with the given key, as the search returns it. -/
def demoIssue (jiraKey : String) : Issue :=
  ⟨jiraKey.toList, "Fix the build".toList, "It is broken.".toList,
    some "me@example.com".toList⟩

/-- The keys that `syncJiraToThings` puts into `existingJiraKeys`. -/
def existingJiraKeys (env : Env) (w : World) : List Str :=
  parseKeys (osascriptList env.newline (openKeysScript w.todos))

/-- The keys that `syncThingsToJira` loops over. -/
def completedJiraKeys (env : Env) (w : World) : List Str :=
  parseKeys (osascriptList env.newline (completedKeysScript w.todos))

end Jira2Things

namespace Jira2Things

/-- Surroundings in which the listings and the search succeed and every call
for a single key fails. -/
def itemsFailEnv : Env :=
  ⟨true, fun _ c =>
    match c with
    | Call.listOpen => false
    | Call.search => false
    | Call.listCompleted => false
    | _ => true, requestKey⟩

end Jira2Things

namespace Jira2Things

/-- A key that a listing reply carries unchanged: not empty and free of white
space (so free of `", "` as well). -/
def plainKey (k : Str) : Bool := !k.isEmpty && k.all (fun c => !isSpace c)

end Jira2Things

namespace Jira2Things

end Jira2Things

namespace Jira2Things

/-- A to-do carries the annotation for a key when the text after the first
`"JIRA-ID: "` of its notes is that key. -/
def carries (jiraKey : Str) (t : Task) : Bool :=
  decide (extractKey t.notes = some jiraKey)

end Jira2Things

namespace Jira2Things

/-- The to-do that `syncJiraToThings` has created for an issue. -/
def issueTask (config : Config) (issue : Issue) : Task :=
  ⟨issueTitle issue, annotate (issueNotes config issue) issue.key, false⟩

/-- The effect of `pullIssue` on the to-dos when no call fails. -/
def createStep (config : Config) (existing : List Str) (todos : List Task)
    (issue : Issue) : List Task :=
  if issue.key ∈ existing then todos
  else if todos.any (fun t => contains t.notes (MARKER ++ issue.key)) then todos
  else todos ++ [issueTask config issue]

/-- The effect of `pullStale` on the to-dos when no call fails. -/
def staleStep (current : List Str) (todos : List Task) (jiraKey : Str) : List Task :=
  if jiraKey ∈ current then todos else (completeScript jiraKey todos).1

/-- The effect of `syncJiraToThings` on the to-dos when no call fails. -/
def pullTodos (nl : Bool) (order : List Str → List Str) (config : Config)
    (issues : List Issue) (todos : List Task) : List Task :=
  (order (parseKeys (osascriptList nl (openKeysScript todos))).dedup).foldl
    (staleStep (issues.map Issue.key))
    (issues.foldl (createStep config (parseKeys (osascriptList nl (openKeysScript todos))))
      todos)

end Jira2Things

namespace Jira2Things

/-- The second list is the first with some more to-dos completed. -/
def Advanced (todos todos' : List Task) : Prop :=
  List.Forall₂ (fun t t' => t'.title = t.title ∧ t'.notes = t.notes ∧
    (t.completed = true → t'.completed = true)) todos todos'

end Jira2Things

namespace Jira2Things

/-- An issue whose description quotes an annotation. -/
def quotingIssue : Issue :=
  ⟨"PROJ-1".toList, "Fix the build".toList, "Copied from JIRA-ID: PROJ-9".toList,
    some "me@example.com".toList⟩

end Jira2Things

namespace Jira2Things

/-- The to-do that the completion script for a key sets completed: the first
one whose notes contain the annotation. -/
def firstHolder (jiraKey : Str) (todos : List Task) : Option Task :=
  todos.find? (fun t => contains t.notes (MARKER ++ jiraKey))

end Jira2Things

namespace Jira2Things

/-! ## Text search -/

theorem cut_eq_none {pat s : Str} : cut pat s = none ↔ ¬ pat <:+: s := by
  induction s with
  | nil =>
    by_cases h : pat = []
    · simp [cut, h]
    · simp [cut, h]
  | cons c cs ih =>
    by_cases hp : pat.isPrefixOf (c :: cs) = true
    · have hp2 : pat <+: c :: cs := List.isPrefixOf_iff_prefix.mp hp
      simp only [cut, hp, if_true]
      simp only [reduceCtorEq, false_iff, not_not]
      exact hp2.isInfix
    · have hp2 : ¬ pat <+: c :: cs := fun h => hp (List.isPrefixOf_iff_prefix.mpr h)
      simp only [cut, hp, Option.map_eq_none', ih]
      simp only [Bool.false_eq_true, if_false, Option.map_eq_none', ih]
      rw [List.infix_cons_iff]
      tauto

theorem cut_eq_some {pat s a b : Str} (h : cut pat s = some (a, b)) :
    s = a ++ pat ++ b := by
  induction s generalizing a with
  | nil =>
    by_cases hp : pat = []
    · simp [cut, hp] at h
      simp [h, hp]
    · simp [cut, hp] at h
  | cons c cs ih =>
    by_cases hp : pat.isPrefixOf (c :: cs) = true
    · have hp2 : pat <+: c :: cs := List.isPrefixOf_iff_prefix.mp hp
      simp only [cut, hp, if_true, Option.some.injEq, Prod.mk.injEq] at h
      obtain ⟨t, ht⟩ := hp2
      rw [← h.1, ← h.2, ← ht]
      simp
    · simp only [cut, hp, Bool.false_eq_true, if_false, Option.map_eq_some'] at h
      obtain ⟨⟨a', b'⟩, h1, h2⟩ := h
      simp only [Prod.mk.injEq] at h2
      obtain ⟨rfl, rfl⟩ := h2
      rw [ih h1]
      simp

theorem contains_iff {s pat : Str} : contains s pat = true ↔ pat <:+: s := by
  unfold contains
  rw [Option.isSome_iff_ne_none, Ne, cut_eq_none, not_not]

theorem contains_eq_false {s pat : Str} : contains s pat = false ↔ ¬ pat <:+: s := by
  rw [← contains_iff]; simp

/-- The first occurrence: no occurrence of the pattern starts inside `a`. -/
theorem cut_append {pat : Str} (hne : pat ≠ []) (a b : Str)
    (h : ∀ a1 a2, a = a1 ++ a2 → a2 ≠ [] → ¬ pat <+: a2 ++ pat ++ b) :
    cut pat (a ++ pat ++ b) = some (a, b) := by
  induction a with
  | nil =>
    cases hpat : pat with
    | nil => exact absurd hpat hne
    | cons p ps =>
      have : (p :: ps).isPrefixOf (p :: ps ++ b) = true :=
        List.isPrefixOf_iff_prefix.mpr (List.prefix_append _ _)
      simp only [List.nil_append, List.cons_append, cut]
      rw [List.cons_append] at this
      simp [this]
  | cons c cs ih =>
    have h1 : ¬ pat <+: (c :: cs) ++ pat ++ b := h [] (c :: cs) rfl (by simp)
    have h2 : pat.isPrefixOf (c :: (cs ++ pat ++ b)) = false := by
      rw [Bool.eq_false_iff]
      intro hh
      exact h1 (by simpa using List.isPrefixOf_iff_prefix.mp hh)
    have ih2 := ih (fun a1 a2 e hne2 => h (c :: a1) a2 (by simp [e]) hne2)
    show cut pat (c :: (cs ++ pat ++ b)) = some (c :: cs, b)
    rw [cut, h2, ih2]
    simp

end Jira2Things

namespace Jira2Things

theorem cut_first {pat s a b a' b' : Str} (h : cut pat s = some (a, b))
    (hs : s = a' ++ pat ++ b') : a.length ≤ a'.length := by
  induction s generalizing a a' with
  | nil =>
    by_cases hp : pat = []
    · simp [cut, hp] at h
      simp [h.1]
    · simp [cut, hp] at h
  | cons c cs ih =>
    by_cases hp : pat.isPrefixOf (c :: cs) = true
    · simp only [cut, hp, if_true, Option.some.injEq, Prod.mk.injEq] at h
      simp [← h.1]
    · simp only [cut, hp, Bool.false_eq_true, if_false, Option.map_eq_some'] at h
      obtain ⟨⟨a0, b0⟩, h1, h2⟩ := h
      simp only [Prod.mk.injEq] at h2
      obtain ⟨rfl, rfl⟩ := h2
      cases a' with
      | nil =>
        exfalso
        apply hp
        rw [List.isPrefixOf_iff_prefix, hs]
        simp
      | cons d ds =>
        simp only [List.cons_append, List.cons.injEq] at hs
        have := ih h1 hs.2
        simpa using this

theorem cut_isSome_of_infix {pat s : Str} (h : pat <:+: s) :
    ∃ a b, cut pat s = some (a, b) := by
  cases hc : cut pat s with
  | none => exact absurd h (cut_eq_none.mp hc)
  | some r => exact ⟨r.1, r.2, rfl⟩

/-- A pattern without the character `c` that starts in front of a `c` ends in
front of it. -/
theorem prefix_of_prefix_append_cons {pat x y : Str} {c : Char} (hc : c ∉ pat)
    (h : pat <+: x ++ c :: y) : pat <+: x := by
  rcases List.prefix_or_prefix_of_prefix h (List.prefix_append x (c :: y)) with h1 | h1
  · exact h1
  · obtain ⟨r, rfl⟩ := h1
    rw [List.prefix_append_right_inj] at h
    cases r with
    | nil => simp
    | cons d r =>
      have : d = c := by
        obtain ⟨t, ht⟩ := h
        simp at ht
        exact ht.1
      exact absurd (by simp [this]) hc

theorem infix_of_infix_append_cons {pat x y : Str} {c : Char} (hc : c ∉ pat)
    (h : pat <:+: x ++ c :: y) : pat <:+: x ∨ pat <:+: y := by
  obtain ⟨u, v, huv⟩ := h
  rw [List.append_assoc] at huv
  rcases List.append_eq_append_iff.mp huv with ⟨a', h1, h2⟩ | ⟨c', h1, h2⟩
  · -- x = u ++ a', pat ++ v = a' ++ c :: y
    have hp : pat <+: a' ++ c :: y := ⟨v, h2⟩
    left
    have := prefix_of_prefix_append_cons hc hp
    rw [h1]
    exact this.isInfix.trans (List.suffix_append u a').isInfix
  · -- u = x ++ c', c :: y = c' ++ (pat ++ v)
    cases c' with
    | nil =>
      simp only [List.nil_append] at h2
      cases pat with
      | nil => left; exact List.nil_infix
      | cons p ps =>
        simp only [List.cons_append, List.cons.injEq] at h2
        exact absurd (by simp [h2.1]) hc
    | cons d ds =>
      simp only [List.cons_append, List.cons.injEq] at h2
      right
      exact ⟨ds, v, by rw [h2.2]; simp⟩

end Jira2Things

namespace Jira2Things

/-! ## The annotation codec -/

theorem newline_not_mem_MARKER : '\n' ∉ MARKER := by decide

theorem MARKER_ne_nil : MARKER ≠ [] := by decide

theorem annotate_eq (notes jiraKey : Str) :
    annotate notes jiraKey = (notes ++ ['\n', '\n']) ++ MARKER ++ jiraKey := by
  simp [annotate, MARKER]

theorem MARKER_infix_annotate (notes jiraKey : Str) :
    MARKER ++ jiraKey <:+: annotate notes jiraKey := by
  rw [annotate_eq]
  exact ⟨notes ++ ['\n', '\n'], [], by simp⟩

/-- Where the first marker of annotated notes is: either the appended one, or
one inside the notes that were annotated. -/
theorem cut_annotate {notes jiraKey a x : Str}
    (h : cut MARKER (annotate notes jiraKey) = some (a, x)) :
    (x = jiraKey ∧ a = notes ++ ['\n', '\n']) ∨
    (MARKER <:+: notes ∧ ∃ d, x = d ++ '\n' :: (MARKER ++ jiraKey)) := by
  have hs := annotate_eq notes jiraKey
  have hlen := cut_first h hs
  have e : (notes ++ ['\n', '\n']) ++ (MARKER ++ jiraKey) = a ++ (MARKER ++ x) := by
    have := cut_eq_some h
    rw [hs] at this
    simpa [List.append_assoc] using this
  rcases List.append_eq_append_iff.mp e with ⟨d, h1, h2⟩ | ⟨d, h1, h2⟩
  · -- a = (notes ++ nn) ++ d
    have hd : d = [] := by
      have := congrArg List.length h1
      simp only [List.length_append] at this hlen
      exact List.length_eq_zero.mp (by omega)
    subst hd
    simp only [List.nil_append, List.append_nil] at h1 h2
    left
    exact ⟨(List.append_cancel_left h2).symm, h1⟩
  · -- notes ++ nn = a ++ d
    rcases List.eq_nil_or_concat d with hd | ⟨d0, c, hd⟩
    · subst hd
      simp only [List.nil_append, List.append_nil] at h1 h2
      left
      exact ⟨List.append_cancel_left h2, h1.symm⟩
    · subst hd
      have h3 : (notes ++ ['\n']) ++ ['\n'] = (a ++ d0) ++ [c] := by
        simpa [List.append_assoc] using h1
      have h4 := List.append_inj' h3 rfl
      simp only [List.cons.injEq, and_true] at h4
      obtain ⟨h5, rfl⟩ := h4
      have hp : MARKER <+: d0 ++ '\n' :: (MARKER ++ jiraKey) :=
        ⟨x, by rw [h2]; simp [List.append_assoc]⟩
      have hp0 := prefix_of_prefix_append_cons newline_not_mem_MARKER hp
      right
      constructor
      · have hi : MARKER <:+: notes ++ '\n' :: [] := by
          rw [h5]; exact hp0.isInfix.trans (List.suffix_append a d0).isInfix
        rcases infix_of_infix_append_cons newline_not_mem_MARKER hi with h6 | h6
        · exact h6
        · exact absurd (List.eq_nil_of_infix_nil h6) MARKER_ne_nil
      · obtain ⟨d1, rfl⟩ := hp0
        refine ⟨d1, ?_⟩
        have : MARKER ++ x = MARKER ++ (d1 ++ '\n' :: (MARKER ++ jiraKey)) := by
          rw [h2]; simp [List.append_assoc]
        exact List.append_cancel_left this

theorem extractKey_annotate {notes jiraKey : Str} (h : contains notes MARKER = false) :
    extractKey (annotate notes jiraKey) = some jiraKey := by
  obtain ⟨a, x, hax⟩ := cut_isSome_of_infix
    ((List.prefix_append MARKER jiraKey).isInfix.trans (MARKER_infix_annotate notes jiraKey))
  rcases cut_annotate hax with ⟨rfl, _⟩ | ⟨h1, _⟩
  · simp [extractKey, hax]
  · exact absurd h1 (contains_eq_false.mp h)

/-- C5, as stated, fails for notes that already hold the marker: the key read
back from `"JIRA-ID: X"` annotated with `K` is `"X\n\nJIRA-ID: K"`, not `K`. -/
theorem codec_round_trip_fails :
    contains "K".toList MARKER = false ∧
    extractKey (annotate "JIRA-ID: X".toList "K".toList) = some "X\n\nJIRA-ID: K".toList ∧
    extractKey (annotate "JIRA-ID: X".toList "K".toList) ≠ some "K".toList := by
  decide

/-- C5 (amended): for notes that do not contain `"JIRA-ID: "` and every key, the
key read back from the annotated notes is the key that was written. -/
theorem codec_round_trip (notes jiraKey : Str) (h : contains notes MARKER = false) :
    extractKey (annotate notes jiraKey) = some jiraKey :=
  extractKey_annotate h

theorem codec_round_trip_witness :
    contains "Jira Issue: https://j/browse/PROJ-1\n\nfix it".toList MARKER = false ∧
    extractKey (annotate "Jira Issue: https://j/browse/PROJ-1\n\nfix it".toList
      "PROJ-1".toList) = some "PROJ-1".toList :=
  ⟨by decide, codec_round_trip _ _ (by decide)⟩

end Jira2Things

namespace Jira2Things

/-! ## The completion script -/

theorem completeScript_spec (jiraKey : Str) (todos : List Task) :
    ((∀ t ∈ todos, contains t.notes (MARKER ++ jiraKey) = false) ∧
      completeScript jiraKey todos = (todos, "false".toList)) ∨
    (∃ pre t post, todos = pre ++ t :: post ∧
      (∀ u ∈ pre, contains u.notes (MARKER ++ jiraKey) = false) ∧
      contains t.notes (MARKER ++ jiraKey) = true ∧
      completeScript jiraKey todos =
        (pre ++ { t with completed := true } :: post, "true".toList)) := by
  induction todos with
  | nil => left; simp [completeScript]
  | cons t ts ih =>
    by_cases ht : contains t.notes (MARKER ++ jiraKey) = true
    · right
      exact ⟨[], t, ts, rfl, by simp, ht, by simp [completeScript, ht]⟩
    · rcases ih with ⟨h1, h2⟩ | ⟨pre, u, post, h1, h2, h3, h4⟩
      · left
        refine ⟨?_, ?_⟩
        · intro x hx
          rcases List.mem_cons.mp hx with rfl | hx
          · simpa using ht
          · exact h1 x hx
        · simp [completeScript, ht, h2]
      · right
        refine ⟨t :: pre, u, post, by simp [h1], ?_, h3, ?_⟩
        · intro x hx
          rcases List.mem_cons.mp hx with rfl | hx
          · simpa using ht
          · exact h2 x hx
        · simp [completeScript, ht, h4]

theorem markThingsTodoCompleted_noFail (nl : Bool) (jiraKey : Str) (w : World) :
    (markThingsTodoCompleted (noFail nl) jiraKey w).1 = none ∧
    (markThingsTodoCompleted (noFail nl) jiraKey w).2.todos =
      (completeScript jiraKey w.todos).1 := by
  simp [markThingsTodoCompleted, extCall, noFail]

/-- C8, as stated, fails when the first to-do holding the annotation is already
completed: the script stops at it, reports `"true"`, and the later to-do that is
not completed stays so, where the specification completes that one. -/
theorem complete_first_open_fails :
    (markThingsTodoCompleted (noFail true) "K".toList (localWorld
      [⟨"a".toList, "JIRA-ID: K".toList, true⟩,
       ⟨"b".toList, "JIRA-ID: K".toList, false⟩])).2.todos =
      [⟨"a".toList, "JIRA-ID: K".toList, true⟩,
       ⟨"b".toList, "JIRA-ID: K".toList, false⟩] ∧
    completeScript "K".toList
      [⟨"a".toList, "JIRA-ID: K".toList, true⟩,
       ⟨"b".toList, "JIRA-ID: K".toList, false⟩] =
      ([⟨"a".toList, "JIRA-ID: K".toList, true⟩,
        ⟨"b".toList, "JIRA-ID: K".toList, false⟩], "true".toList) ∧
    specCompleteTaskByKey "K".toList
      [⟨"a".toList, "JIRA-ID: K".toList, true⟩,
       ⟨"b".toList, "JIRA-ID: K".toList, false⟩] =
      ([⟨"a".toList, "JIRA-ID: K".toList, true⟩,
        ⟨"b".toList, "JIRA-ID: K".toList, true⟩], true) ∧
    (completeScript "K".toList
      [⟨"a".toList, "JIRA-ID: K".toList, true⟩,
       ⟨"b".toList, "JIRA-ID: K".toList, false⟩]).1 ≠
    (specCompleteTaskByKey "K".toList
      [⟨"a".toList, "JIRA-ID: K".toList, true⟩,
       ⟨"b".toList, "JIRA-ID: K".toList, false⟩]).1 := by
  decide

/-- C8 (amended): with no failing call, `markThingsTodoCompleted` returns no
error and either no to-do holds `"JIRA-ID: " ++ key` in its notes, the list is
unchanged and the script reports `"false"`; or the first to-do in list order
whose notes hold it, completed or not, is set completed, every other to-do is
unchanged and the script reports `"true"`. -/
theorem complete_first_match (nl : Bool) (jiraKey : Str) (w : World) :
    (markThingsTodoCompleted (noFail nl) jiraKey w).1 = none ∧
    (((∀ t ∈ w.todos, contains t.notes (MARKER ++ jiraKey) = false) ∧
        (markThingsTodoCompleted (noFail nl) jiraKey w).2.todos = w.todos ∧
        (completeScript jiraKey w.todos).2 = "false".toList) ∨
      (∃ pre t post, w.todos = pre ++ t :: post ∧
        (∀ u ∈ pre, contains u.notes (MARKER ++ jiraKey) = false) ∧
        contains t.notes (MARKER ++ jiraKey) = true ∧
        (markThingsTodoCompleted (noFail nl) jiraKey w).2.todos =
          pre ++ { t with completed := true } :: post ∧
        (completeScript jiraKey w.todos).2 = "true".toList)) := by
  obtain ⟨h1, h2⟩ := markThingsTodoCompleted_noFail nl jiraKey w
  refine ⟨h1, ?_⟩
  rw [h2]
  rcases completeScript_spec jiraKey w.todos with ⟨h3, h4⟩ | ⟨pre, t, post, h3, h4, h5, h6⟩
  · left
    exact ⟨h3, by rw [h4], by rw [h4]⟩
  · right
    exact ⟨pre, t, post, h3, h4, h5, by rw [h6], by rw [h6]⟩

end Jira2Things

namespace Jira2Things

/-! ## Calls and failures -/

theorem extCall_todos (env : Env) (c : Call) (w : World) :
    (extCall env c w).2.todos = w.todos := rfl

theorem extCall_trace (env : Env) (c : Call) (w : World) :
    (extCall env c w).2.trace = w.trace ++ [c] := rfl

theorem createThingsTodo_trace (env : Env) (project title notes jiraKey : Str) (w : World) :
    w.trace ++ [Call.check jiraKey] <+:
      (createThingsTodo env project title notes jiraKey w).2.trace := by
  unfold createThingsTodo
  simp only [extCall_trace, extCall_todos]
  split
  · simp [extCall_trace]
  · split
    · simp [extCall_trace]
    · split <;> simp [extCall_trace]

theorem markThingsTodoCompleted_trace (env : Env) (jiraKey : Str) (w : World) :
    (markThingsTodoCompleted env jiraKey w).2.trace = w.trace ++ [Call.complete jiraKey] := by
  simp only [markThingsTodoCompleted]
  split <;> simp [extCall_trace]

theorem pullIssue_trace (env : Env) (config : Config) (existing : List Str) (w : World)
    (issue : Issue) : w.trace <+: (pullIssue env config existing w issue).trace := by
  unfold pullIssue
  split
  · exact List.prefix_refl _
  · exact (List.prefix_append _ _).trans (createThingsTodo_trace env _ _ _ _ w)

theorem pullIssue_attempt (env : Env) (config : Config) (existing : List Str) (w : World)
    (issue : Issue) (h : issue.key ∉ existing) :
    Call.check issue.key ∈ (pullIssue env config existing w issue).trace := by
  unfold pullIssue
  rw [if_neg h]
  exact (createThingsTodo_trace env _ _ _ _ w).subset (by simp)

theorem pullStale_trace (env : Env) (current : List Str) (w : World) (jiraKey : Str) :
    w.trace <+: (pullStale env current w jiraKey).trace := by
  unfold pullStale
  split
  · exact List.prefix_refl _
  · rw [markThingsTodoCompleted_trace]; exact List.prefix_append _ _

theorem pullStale_attempt (env : Env) (current : List Str) (w : World) (jiraKey : Str)
    (h : jiraKey ∉ current) :
    Call.complete jiraKey ∈ (pullStale env current w jiraKey).trace := by
  unfold pullStale
  rw [if_neg h, markThingsTodoCompleted_trace]
  simp

theorem pushKey_trace (env : Env) (config : Config) (w : World) (jiraKey : Str) :
    w.trace <+: (pushKey env config w jiraKey).trace ∧
    (jiraKey ≠ [] → Call.getIssue jiraKey ∈ (pushKey env config w jiraKey).trace) := by
  unfold pushKey
  by_cases hk : jiraKey = []
  · simp [hk]
  · simp only [hk, if_false]
    split
    · simp [extCall_trace]
    · split
      · simp [extCall_trace]
      · split
        · split
          · simp [extCall_trace, List.append_assoc]
          · simp [extCall_trace, List.append_assoc]
        · simp [extCall_trace]

/-- A loop whose steps only extend the trace extends the trace, and a call that
a step always issues for its item is in the final trace for every item. -/
theorem foldl_trace {α : Type} (f : World → α → World)
    (hmono : ∀ w a, w.trace <+: (f w a).trace) (l : List α) (w : World) :
    w.trace <+: (l.foldl f w).trace := by
  induction l generalizing w with
  | nil => exact List.prefix_refl _
  | cons a l ih => exact (hmono w a).trans (ih (f w a))

theorem foldl_attempt {α : Type} (f : World → α → World) (c : α → Call) (P : α → Prop)
    (hmono : ∀ w a, w.trace <+: (f w a).trace)
    (hatt : ∀ w a, P a → c a ∈ (f w a).trace) (l : List α) (w : World) :
    ∀ a ∈ l, P a → c a ∈ (l.foldl f w).trace := by
  induction l generalizing w with
  | nil => simp
  | cons b l ih =>
    intro a ha hP
    rcases List.mem_cons.mp ha with rfl | ha
    · exact (foldl_trace f hmono l (f w a)).subset (hatt w a hP)
    · exact ih (f w b) a ha hP

end Jira2Things

namespace Jira2Things

theorem syncJiraToThings_ok (env : Env) (order : List Str → List Str) (config : Config)
    (issues : List Issue) (w : World)
    (hList : env.fails w.trace.length Call.listOpen = false)
    (hSearch : env.fails (w.trace.length + 1) Call.search = false) :
    syncJiraToThings env order config issues w =
      (none, (order (existingJiraKeys env w).dedup).foldl
        (pullStale env (issues.map Issue.key))
        (issues.foldl (pullIssue env config (existingJiraKeys env w))
          (extCall env Call.search (extCall env Call.listOpen w).2).2)) := by
  have h1 : (extCall env Call.listOpen w).1 = false := hList
  have h2 : (extCall env Call.search (extCall env Call.listOpen w).2).1 = false := by
    simpa [extCall] using hSearch
  simp only [syncJiraToThings, h1, h2, Bool.false_eq_true, if_false, extCall_todos,
    existingJiraKeys]

theorem syncThingsToJira_ok (env : Env) (config : Config) (w : World)
    (hList : env.fails w.trace.length Call.listCompleted = false) :
    syncThingsToJira env config w =
      (none, (completedJiraKeys env w).foldl (pushKey env config)
        (extCall env Call.listCompleted w).2) := by
  have h1 : (extCall env Call.listCompleted w).1 = false := hList
  simp only [syncThingsToJira, h1, Bool.false_eq_true, if_false, extCall_todos,
    completedJiraKeys]

/-- C7: whatever per-key calls fail, `syncJiraToThings` returns no error when
the listing of open keys and the search succeed, and `syncThingsToJira` returns
no error when the listing of completed keys succeeds; and every key of each loop
is attempted: the existence check is issued for every listed issue that is not
in `existingJiraKeys`, the completion script for every key of `existingJiraKeys`
that is not among the listed issues, and `Issue.Get` for every non-empty key of
the completed listing. -/
theorem per_item_failures_never_abort (env : Env) (order : List Str → List Str)
    (config : Config) (issues : List Issue) (w w2 : World)
    (hOrder : ∀ l, (order l).Perm l)
    (hList : env.fails w.trace.length Call.listOpen = false)
    (hSearch : env.fails (w.trace.length + 1) Call.search = false)
    (hCompleted : env.fails w2.trace.length Call.listCompleted = false) :
    (syncJiraToThings env order config issues w).1 = none ∧
    (∀ issue ∈ issues, issue.key ∉ existingJiraKeys env w →
      Call.check issue.key ∈ (syncJiraToThings env order config issues w).2.trace) ∧
    (∀ k ∈ existingJiraKeys env w, k ∉ issues.map Issue.key →
      Call.complete k ∈ (syncJiraToThings env order config issues w).2.trace) ∧
    (syncThingsToJira env config w2).1 = none ∧
    (∀ k ∈ completedJiraKeys env w2, k ≠ [] →
      Call.getIssue k ∈ (syncThingsToJira env config w2).2.trace) := by
  rw [syncJiraToThings_ok env order config issues w hList hSearch,
    syncThingsToJira_ok env config w2 hCompleted]
  refine ⟨rfl, ?_, ?_, rfl, ?_⟩
  · intro issue hi hk
    exact (foldl_trace _ (pullStale_trace env _) _ _).subset
      (foldl_attempt _ (fun i => Call.check i.key) (fun i => i.key ∉ existingJiraKeys env w)
        (pullIssue_trace env config _) (fun w i h => pullIssue_attempt env config _ w i h)
        issues _ issue hi hk)
  · intro k hk hc
    have hmem : k ∈ order (existingJiraKeys env w).dedup :=
      (hOrder _).mem_iff.mpr (List.mem_dedup.mpr hk)
    exact foldl_attempt _ (fun k => Call.complete k) (fun k => k ∉ issues.map Issue.key)
      (pullStale_trace env _) (fun w k h => pullStale_attempt env _ w k h) _ _ k hmem hc
  · intro k hk hne
    exact foldl_attempt _ (fun k => Call.getIssue k) (fun k => k ≠ [])
      (fun w k => (pushKey_trace env config w k).1)
      (fun w k h => (pushKey_trace env config w k).2 h) _ _ k hk hne

theorem per_item_failures_never_abort_witness :
    (syncJiraToThings itemsFailEnv id demoConfig [demoIssue "PROJ-1", demoIssue "PROJ-2"]
      (localWorld [⟨"t".toList, "JIRA-ID: PROJ-3".toList, false⟩])).1 = none ∧
    (syncThingsToJira itemsFailEnv demoConfig
      (localWorld [⟨"t".toList, "JIRA-ID: PROJ-4".toList, true⟩])).1 = none :=
  have h := per_item_failures_never_abort itemsFailEnv id demoConfig
    [demoIssue "PROJ-1", demoIssue "PROJ-2"]
    (localWorld [⟨"t".toList, "JIRA-ID: PROJ-3".toList, false⟩])
    (localWorld [⟨"t".toList, "JIRA-ID: PROJ-4".toList, true⟩])
    (fun l => List.Perm.refl l) (by decide) (by decide) (by decide)
  ⟨h.1, h.2.2.2.1⟩

/-! ## The empty-list scenario -/

/-- C6 (the code at the failing input): with an empty project, the open issue
`PROJ-1` and a listing reply that is a lone line feed, `existingJiraKeys` holds
the empty key; the to-do for `PROJ-1` is created and the second loop then asks
the completion script for the empty key, which completes it.  With empty
output the to-do stays open. -/
theorem empty_list_scenario_completes_new_todo :
    existingJiraKeys (noFail true) (localWorld []) = [[]] ∧
    (syncJiraToThings (noFail true) id demoConfig [demoIssue "PROJ-1"]
      (localWorld [])).2.todos =
      [⟨"[PROJ-1] Fix the build".toList,
        "Jira Issue: https://jira.example.com/browse/PROJ-1\n\nIt is broken.\n\nJIRA-ID: PROJ-1".toList,
        true⟩] ∧
    existingJiraKeys (noFail false) (localWorld []) = [] ∧
    (syncJiraToThings (noFail false) id demoConfig [demoIssue "PROJ-1"]
      (localWorld [])).2.todos =
      [⟨"[PROJ-1] Fix the build".toList,
        "Jira Issue: https://jira.example.com/browse/PROJ-1\n\nIt is broken.\n\nJIRA-ID: PROJ-1".toList,
        false⟩] := by
  decide

end Jira2Things

namespace Jira2Things

/-! ## Splitting, joining and trimming -/

theorem plainKey_iff {k : Str} :
    plainKey k = true ↔ k ≠ [] ∧ ∀ c ∈ k, isSpace c = false := by
  cases k <;> simp [plainKey]

theorem space_not_mem_of_plain {k : Str} (h : plainKey k = true) : ' ' ∉ k := by
  intro hm
  have := (plainKey_iff.mp h).2 ' ' hm
  exact absurd this (by decide)

theorem newline_not_mem_of_plain {k : Str} (h : plainKey k = true) : '\n' ∉ k := by
  intro hm
  have := (plainKey_iff.mp h).2 '\n' hm
  exact absurd this (by decide)

/-- A pattern `p ++ [c]` with `c ∉ p` does not start inside a text free of `c`
that is followed by the pattern. -/
theorem not_prefix_of_last {p a r : Str} {c : Char} (hp : c ∉ p) (ha : c ∉ a)
    (hne : a ≠ []) : ¬ (p ++ [c]) <+: a ++ (p ++ [c]) ++ r := by
  intro h
  have h1 := List.prefix_iff_eq_take.mp h
  have hlen : (p ++ [c]).length ≤ (a ++ p).length := by
    have : 0 < a.length := List.length_pos.mpr hne
    simp only [List.length_append, List.length_singleton]
    omega
  have h2 : a ++ (p ++ [c]) ++ r = (a ++ p) ++ (c :: r) := by simp [List.append_assoc]
  rw [h2, List.take_append_of_le_length hlen] at h1
  have hc : c ∈ List.take (p ++ [c]).length (a ++ p) := by
    rw [← h1]; simp
  have := List.mem_of_mem_take hc
  rcases List.mem_append.mp this with h3 | h3
  · exact ha h3
  · exact hp h3

theorem cut_after_clean {p k r : Str} {c : Char} (hp : c ∉ p) (hk : c ∉ k) :
    cut (p ++ [c]) (k ++ (p ++ [c]) ++ r) = some (k, r) := by
  apply cut_append (by simp)
  intro a1 a2 e hne
  apply not_prefix_of_last hp _ hne
  intro hm
  exact hk (by rw [e]; exact List.mem_append_right _ hm)

theorem cut_none_of_not_mem {pat k : Str} {c : Char} (hc : c ∈ pat) (hk : c ∉ k) :
    cut pat k = none := by
  rw [cut_eq_none]
  intro h
  exact hk (h.subset hc)

theorem cut_length_lt {sep s a b : Str} (hsep : sep ≠ []) (h : cut sep s = some (a, b)) :
    b.length < s.length := by
  have := congrArg List.length (cut_eq_some h)
  have hpos : 0 < sep.length := List.length_pos.mpr hsep
  simp only [List.length_append] at this
  omega

/-- The cap on the number of cuts never stops the loop early. -/
theorem splitLoop_fuel {sep : Str} (hsep : sep ≠ []) (n : Nat) (s : Str)
    (h : s.length ≤ n) : splitLoop sep n s = splitLoop sep s.length s := by
  induction n using Nat.strong_induction_on generalizing s with
  | _ n ih =>
    cases n with
    | zero =>
      have : s.length = 0 := by omega
      rw [this]
    | succ n =>
      cases hs : s.length with
      | zero =>
        have hnil : s = [] := List.length_eq_zero.mp hs
        subst hnil
        cases hc : cut sep [] with
        | none => simp [splitLoop, hc]
        | some r =>
          have := cut_length_lt hsep (a := r.1) (b := r.2) hc
          simp at this
      | succ m =>
        cases hc : cut sep s with
        | none => simp [splitLoop, hc]
        | some r =>
          obtain ⟨a, b⟩ := r
          have hb := cut_length_lt hsep hc
          simp only [splitLoop, hc]
          rw [ih n (by omega) b (by omega), ih m (by omega) b (by omega)]

theorem split_of_cut_none {sep s : Str} (h : cut sep s = none) : split s sep = [s] := by
  unfold split
  cases s.length <;> simp [splitLoop, h]

theorem split_of_cut_some {sep s a b : Str} (hsep : sep ≠ [])
    (h : cut sep s = some (a, b)) : split s sep = a :: split b sep := by
  have hb := cut_length_lt hsep h
  unfold split
  cases hs : s.length with
  | zero => omega
  | succ m =>
    simp only [splitLoop, h]
    rw [splitLoop_fuel hsep m b (by omega)]

end Jira2Things

namespace Jira2Things

theorem commaSpace_eq : ", ".toList = [','] ++ [' '] := by decide

theorem cut_commaSpace_plain {k : Str} (hk : plainKey k = true) :
    cut ", ".toList k = none :=
  cut_none_of_not_mem (c := ' ') (by decide) (space_not_mem_of_plain hk)

theorem cut_commaSpace_append {k r : Str} (hk : plainKey k = true) :
    cut ", ".toList (k ++ ", ".toList ++ r) = some (k, r) := by
  rw [commaSpace_eq]
  exact cut_after_clean (by decide) (space_not_mem_of_plain hk)

theorem split_join_plain (keys : List Str) (hne : keys ≠ [])
    (h : ∀ k ∈ keys, plainKey k = true) :
    split (join keys ", ".toList) ", ".toList = keys := by
  induction keys with
  | nil => exact absurd rfl hne
  | cons k ks ih =>
    cases ks with
    | nil =>
      simp only [join]
      exact split_of_cut_none (cut_commaSpace_plain (h k (by simp)))
    | cons k2 ks =>
      simp only [join]
      rw [split_of_cut_some (by decide) (cut_commaSpace_append (h k (by simp))),
        ih (by simp) (fun x hx => h x (List.mem_cons_of_mem _ hx))]

/-- The joined plain keys start and end with a character that is not white
space. -/
theorem join_plain_ends (keys : List Str) (hne : keys ≠ [])
    (h : ∀ k ∈ keys, plainKey k = true) :
    (∃ c rest, join keys ", ".toList = c :: rest ∧ isSpace c = false) ∧
    (∃ front c, join keys ", ".toList = front ++ [c] ∧ isSpace c = false) := by
  induction keys with
  | nil => exact absurd rfl hne
  | cons k ks ih =>
    obtain ⟨hkne, hk⟩ := plainKey_iff.mp (h k (by simp))
    cases ks with
    | nil =>
      simp only [join]
      constructor
      · cases k with
        | nil => exact absurd rfl hkne
        | cons c rest => exact ⟨c, rest, rfl, hk c (by simp)⟩
      · rcases List.eq_nil_or_concat k with hnil | ⟨front, c, hc⟩
        · exact absurd hnil hkne
        · rw [List.concat_eq_append] at hc
          exact ⟨front, c, hc, hk c (by rw [hc]; simp)⟩
    | cons k2 ks =>
      simp only [join]
      obtain ⟨_, front, c, hfc, hc⟩ := ih (by simp) (fun x hx => h x (List.mem_cons_of_mem _ hx))
      constructor
      · cases k with
        | nil => exact absurd rfl hkne
        | cons c rest =>
          exact ⟨c, rest ++ ", ".toList ++ join (k2 :: ks) ", ".toList, by simp,
            hk c (by simp)⟩
      · exact ⟨k ++ ", ".toList ++ front, c, by rw [hfc]; simp [List.append_assoc], hc⟩

theorem trimSpace_osascriptText (nl : Bool) (s : Str)
    (h1 : ∃ c rest, s = c :: rest ∧ isSpace c = false)
    (h2 : ∃ front c, s = front ++ [c] ∧ isSpace c = false) :
    trimSpace (osascriptText nl s) = s := by
  obtain ⟨c, rest, hs, hc⟩ := h1
  obtain ⟨front, d, hs2, hd⟩ := h2
  have hdrop : (osascriptText nl s).dropWhile isSpace = osascriptText nl s := by
    rw [hs]
    simp [osascriptText, List.dropWhile, hc]
  unfold trimSpace
  rw [hdrop, hs2]
  cases nl with
  | false =>
    simp only [osascriptText, Bool.false_eq_true, if_false, List.append_nil]
    exact List.rdropWhile_concat_neg _ _ _ (by simp [hd])
  | true =>
    simp only [osascriptText, if_true]
    have : front ++ [d] ++ ['\n'] = (front ++ [d]) ++ ['\n'] := rfl
    rw [List.rdropWhile_concat_pos _ _ _ (by decide)]
    exact List.rdropWhile_concat_neg _ _ _ (by simp [hd])

theorem osascriptText_length_pos (nl : Bool) (s : Str) (h : s ≠ []) :
    (osascriptText nl s).length > 0 := by
  have : 0 < s.length := List.length_pos.mpr h
  simp only [osascriptText, List.length_append]
  omega

/-- The listing reply is read back as the listed keys when these are plain. -/
theorem parseKeys_osascriptList (nl : Bool) (keys : List Str) (hne : keys ≠ [])
    (h : ∀ k ∈ keys, plainKey k = true) :
    parseKeys (osascriptList nl keys) = keys := by
  obtain ⟨h1, h2⟩ := join_plain_ends keys hne h
  have hjne : join keys ", ".toList ≠ [] := by
    obtain ⟨c, rest, e, _⟩ := h1
    rw [e]; simp
  unfold parseKeys osascriptList
  rw [if_pos (osascriptText_length_pos nl _ hjne), trimSpace_osascriptText nl _ h1 h2]
  exact split_join_plain keys hne h

theorem parseKeys_osascriptList_nil (nl : Bool) :
    parseKeys (osascriptList nl []) = if nl then [[]] else [] := by
  cases nl <;> decide

theorem mem_parseKeys_osascriptList {nl : Bool} {keys : List Str}
    (h : ∀ k ∈ keys, plainKey k = true) {k : Str} :
    k ∈ parseKeys (osascriptList nl keys) ↔ k ∈ keys ∨ (keys = [] ∧ nl = true ∧ k = []) := by
  by_cases hne : keys = []
  · subst hne
    rw [parseKeys_osascriptList_nil]
    cases nl <;> simp
  · rw [parseKeys_osascriptList nl keys hne h]
    simp [hne]

end Jira2Things

namespace Jira2Things

/-! ## The push pass -/

end Jira2Things

namespace Jira2Things

/-! ## The steps of the pull pass on the to-dos -/

theorem trimSpace_existsScript (nl : Bool) (todos : List Task) (jiraKey : Str) :
    (trimSpace (osascriptText nl (existsScript todos jiraKey)) = "true".toList) ↔
      todos.any (fun t => contains t.notes (MARKER ++ jiraKey)) = true := by
  unfold existsScript
  by_cases h : todos.any (fun t => contains t.notes (MARKER ++ jiraKey)) = true
  · rw [if_pos h]
    simp only [h, iff_true]
    cases nl <;> decide
  · rw [if_neg h]
    simp only [h, iff_false]
    cases nl <;> decide

/-- `createThingsTodo` leaves the to-dos alone or, when no notes contain the
annotation, appends the annotated to-do. -/
theorem createThingsTodo_todos (env : Env) (project title notes jiraKey : Str)
    (w : World) :
    (createThingsTodo env project title notes jiraKey w).2.todos = w.todos ∨
    ((∀ t ∈ w.todos, contains t.notes (MARKER ++ jiraKey) = false) ∧
      (createThingsTodo env project title notes jiraKey w).2.todos =
        w.todos ++ [⟨title, annotate notes jiraKey, false⟩]) := by
  simp only [createThingsTodo, extCall_todos]
  split
  · left; rfl
  · split
    · left; rfl
    · rename_i h
      rw [trimSpace_existsScript] at h
      split
      · left; rfl
      · right
        refine ⟨?_, rfl⟩
        intro t ht
        simp only [List.any_eq_true, not_exists, not_and, Bool.not_eq_true] at h
        exact h t ht

theorem createThingsTodo_noFail (nl : Bool) (project title notes jiraKey : Str)
    (w : World) :
    (createThingsTodo (noFail nl) project title notes jiraKey w).1 = none ∧
    (createThingsTodo (noFail nl) project title notes jiraKey w).2.todos =
      if w.todos.any (fun t => contains t.notes (MARKER ++ jiraKey)) then w.todos
      else w.todos ++ [⟨title, annotate notes jiraKey, false⟩] := by
  have hx := trimSpace_existsScript nl w.todos jiraKey
  by_cases h : w.todos.any (fun t => contains t.notes (MARKER ++ jiraKey)) = true
  · have h2 := hx.mpr h
    simp only [createThingsTodo, extCall, noFail, Bool.false_eq_true, if_false]
    rw [if_pos h2]
    simp [h]
  · have h2 : ¬ _ := fun hh => h (hx.mp hh)
    simp only [Bool.not_eq_true] at h
    simp only [createThingsTodo, extCall, noFail, Bool.false_eq_true, if_false]
    rw [if_neg h2]
    simp [h]

theorem markThingsTodoCompleted_todos (env : Env) (jiraKey : Str) (w : World) :
    (markThingsTodoCompleted env jiraKey w).2.todos = w.todos ∨
    (markThingsTodoCompleted env jiraKey w).2.todos = (completeScript jiraKey w.todos).1 := by
  simp only [markThingsTodoCompleted]
  split
  · left; rfl
  · right; rfl

/-- A property of the to-dos that is kept by a guarded creation and by the
completion script is kept by `syncJiraToThings`, whatever fails. -/
theorem syncJiraToThings_invariant (P : List Task → Prop)
    (hcreate : ∀ todos title notes jiraKey, P todos →
      (∀ t ∈ todos, contains t.notes (MARKER ++ jiraKey) = false) →
      P (todos ++ [⟨title, annotate notes jiraKey, false⟩]))
    (hmark : ∀ todos jiraKey, P todos → P (completeScript jiraKey todos).1)
    (env : Env) (order : List Str → List Str) (config : Config) (issues : List Issue)
    (w : World) (h : P w.todos) :
    P (syncJiraToThings env order config issues w).2.todos := by
  have hIssue : ∀ existing (l : List Issue) (w : World), P w.todos →
      P (l.foldl (pullIssue env config existing) w).todos := by
    intro existing l
    induction l with
    | nil => intro w hw; exact hw
    | cons i l ih =>
      intro w hw
      apply ih
      unfold pullIssue
      split
      · exact hw
      · rcases createThingsTodo_todos env config.thingsProject (issueTitle i)
          (issueNotes config i) i.key w with
          e | ⟨h1, e⟩
        · rw [e]; exact hw
        · rw [e]; exact hcreate _ _ _ _ hw h1
  have hStale : ∀ current (l : List Str) (w : World), P w.todos →
      P (l.foldl (pullStale env current) w).todos := by
    intro current l
    induction l with
    | nil => intro w hw; exact hw
    | cons k l ih =>
      intro w hw
      apply ih
      unfold pullStale
      split
      · exact hw
      · rcases markThingsTodoCompleted_todos env k w with e | e
        · rw [e]; exact hw
        · rw [e]; exact hmark _ _ hw
  simp only [syncJiraToThings]
  split
  · exact h
  · split
    · exact h
    · exact hStale _ _ _ (hIssue _ _ _ h)

end Jira2Things

namespace Jira2Things

/-! ## No duplicate annotations -/

theorem extractKey_eq_some {n x : Str} :
    extractKey n = some x ↔ ∃ a, cut MARKER n = some (a, x) := by
  unfold extractKey
  constructor
  · intro h
    obtain ⟨⟨a, b⟩, h1, h2⟩ := Option.map_eq_some'.mp h
    exact ⟨a, by rw [h1]; simp only [Option.some.injEq, Prod.mk.injEq, true_and]; exact h2⟩
  · rintro ⟨a, h⟩
    simp [h]

theorem infix_of_extractKey {n x : Str} (h : extractKey n = some x) : MARKER ++ x <:+: n := by
  obtain ⟨a, ha⟩ := extractKey_eq_some.mp h
  exact ⟨a, [], by rw [cut_eq_some ha]; simp⟩

/-- Notes with the key that freshly annotated notes carry contain the fresh
annotation. -/
theorem infix_of_carries_annotate {notes jiraKey x tn : Str}
    (h1 : extractKey (annotate notes jiraKey) = some x) (h2 : extractKey tn = some x) :
    MARKER ++ jiraKey <:+: tn := by
  obtain ⟨a, ha⟩ := extractKey_eq_some.mp h1
  have h3 := infix_of_extractKey h2
  rcases cut_annotate ha with ⟨rfl, _⟩ | ⟨_, d, rfl⟩
  · exact h3
  · refine List.IsInfix.trans ?_ h3
    exact ⟨MARKER ++ (d ++ ['\n']), [], by simp [List.append_assoc]⟩

theorem completeScript_notes (jiraKey : Str) (todos : List Task) :
    (completeScript jiraKey todos).1.map Task.notes = todos.map Task.notes := by
  induction todos with
  | nil => rfl
  | cons t ts ih =>
    by_cases h : contains t.notes (MARKER ++ jiraKey) = true
    · simp [completeScript, h]
    · simp [completeScript, h, ih]

theorem countP_carries_eq (k : Str) (todos : List Task) :
    todos.countP (carries k) =
      (todos.map Task.notes).countP (fun n => decide (extractKey n = some k)) := by
  rw [List.countP_map]
  rfl

theorem countP_carries_completeScript (k jiraKey : Str) (todos : List Task) :
    (completeScript jiraKey todos).1.countP (carries k) = todos.countP (carries k) := by
  rw [countP_carries_eq, countP_carries_eq, completeScript_notes]

theorem countP_carries_append_new (k : Str) (todos : List Task) (title notes jiraKey : Str)
    (h : ∀ t ∈ todos, contains t.notes (MARKER ++ jiraKey) = false)
    (hc : todos.countP (carries k) ≤ 1) :
    (todos ++ [(⟨title, annotate notes jiraKey, false⟩ : Task)]).countP (carries k) ≤ 1 := by
  rw [List.countP_append]
  by_cases hk : carries k (⟨title, annotate notes jiraKey, false⟩ : Task) = true
  · have h0 : todos.countP (carries k) = 0 := by
      rw [List.countP_eq_zero]
      intro t ht hct
      have h1 : extractKey (annotate notes jiraKey) = some k := by
        simpa [carries] using hk
      have h2 : extractKey t.notes = some k := by simpa [carries] using hct
      have := infix_of_carries_annotate h1 h2
      exact absurd this (contains_eq_false.mp (h t ht))
    simp [h0, hk]
  · simpa [hk] using hc

theorem countP_carries_le_one_of_nodup (todos : List Task)
    (h : (todos.filterMap (fun t => extractKey t.notes)).Nodup) (k : Str) :
    todos.countP (carries k) ≤ 1 := by
  induction todos with
  | nil => simp
  | cons t ts ih =>
    cases hx : extractKey t.notes with
    | none =>
      rw [List.filterMap_cons, hx] at h
      have : carries k t = false := by simp [carries, hx]
      simpa [List.countP_cons, this] using ih h
    | some x =>
      rw [List.filterMap_cons, hx] at h
      obtain ⟨h1, h2⟩ := List.nodup_cons.mp h
      by_cases hk : x = k
      · subst hk
        have h0 : ts.countP (carries x) = 0 := by
          rw [List.countP_eq_zero]
          intro u hu hcu
          apply h1
          rw [List.mem_filterMap]
          exact ⟨u, hu, by simpa [carries] using hcu⟩
        rw [List.countP_cons, h0]
        split <;> omega
      · have : carries k t = false := by simp [carries, hx, hk]
        simpa [List.countP_cons, this] using ih h2

/-- C9: if every key is carried by at most one to-do before `syncJiraToThings`,
the same holds afterwards, for every listing of issues (also one that repeats a
key), every order of the second loop and whatever calls fail; and with no
failing call `createThingsTodo` returns no error, adds nothing when the notes of
some to-do already contain `"JIRA-ID: " ++ key`, and appends exactly the one
annotated to-do otherwise. -/
theorem no_duplicate_annotations (env : Env) (order : List Str → List Str)
    (config : Config) (issues : List Issue) (w : World)
    (h : ∀ k, w.todos.countP (carries k) ≤ 1) :
    (∀ k, (syncJiraToThings env order config issues w).2.todos.countP (carries k) ≤ 1) ∧
    (∀ nl project title notes jiraKey,
      (createThingsTodo (noFail nl) project title notes jiraKey w).1 = none ∧
      (createThingsTodo (noFail nl) project title notes jiraKey w).2.todos =
        if w.todos.any (fun t => contains t.notes (MARKER ++ jiraKey)) then w.todos
        else w.todos ++ [⟨title, annotate notes jiraKey, false⟩]) := by
  constructor
  · intro k
    apply syncJiraToThings_invariant (fun todos => todos.countP (carries k) ≤ 1)
    · intro todos title notes jiraKey hP hno
      exact countP_carries_append_new k todos title notes jiraKey hno hP
    · intro todos jiraKey hP
      rw [countP_carries_completeScript]
      exact hP
    · exact h k
  · intro nl project title notes jiraKey
    exact createThingsTodo_noFail nl project title notes jiraKey w

theorem no_duplicate_annotations_witness :
    (syncJiraToThings (noFail true) id demoConfig
      [demoIssue "PROJ-1", demoIssue "PROJ-2", demoIssue "PROJ-1"]
      (localWorld [⟨"t".toList, "JIRA-ID: PROJ-2".toList, false⟩,
        ⟨"u".toList, "JIRA-ID: PROJ-3".toList, false⟩])).2.todos.countP
      (carries "PROJ-1".toList) ≤ 1 :=
  (no_duplicate_annotations (noFail true) id demoConfig
    [demoIssue "PROJ-1", demoIssue "PROJ-2", demoIssue "PROJ-1"]
    (localWorld [⟨"t".toList, "JIRA-ID: PROJ-2".toList, false⟩,
      ⟨"u".toList, "JIRA-ID: PROJ-3".toList, false⟩])
    (countP_carries_le_one_of_nodup _ (by decide))).1 "PROJ-1".toList

end Jira2Things

namespace Jira2Things

/-! ## The pull pass without failures -/

theorem pullIssue_noFail_todos (nl : Bool) (config : Config) (existing : List Str)
    (w : World) (issue : Issue) :
    (pullIssue (noFail nl) config existing w issue).todos =
      createStep config existing w.todos issue := by
  unfold pullIssue createStep
  split
  · rfl
  · rw [(createThingsTodo_noFail nl _ _ _ _ w).2]
    rfl

theorem pullStale_noFail_todos (nl : Bool) (current : List Str) (w : World)
    (jiraKey : Str) :
    (pullStale (noFail nl) current w jiraKey).todos = staleStep current w.todos jiraKey := by
  unfold pullStale staleStep
  split
  · rfl
  · exact (markThingsTodoCompleted_noFail nl jiraKey w).2

theorem foldl_todos {α : Type} (f : World → α → World) (g : List Task → α → List Task)
    (h : ∀ w a, (f w a).todos = g w.todos a) (l : List α) (w : World) :
    (l.foldl f w).todos = l.foldl g w.todos := by
  induction l generalizing w with
  | nil => rfl
  | cons a l ih => rw [List.foldl_cons, List.foldl_cons, ih, h]

theorem syncJiraToThings_noFail (nl : Bool) (order : List Str → List Str) (config : Config)
    (issues : List Issue) (w : World) :
    (syncJiraToThings (noFail nl) order config issues w).1 = none ∧
    (syncJiraToThings (noFail nl) order config issues w).2.todos =
      pullTodos nl order config issues w.todos := by
  rw [syncJiraToThings_ok (noFail nl) order config issues w rfl rfl]
  refine ⟨rfl, ?_⟩
  show World.todos (List.foldl _ _ _) = _
  rw [foldl_todos _ _ (pullStale_noFail_todos nl _), foldl_todos _ _
    (pullIssue_noFail_todos nl config _)]
  rfl

/-! ### The first loop -/

theorem createStep_shape (config : Config) (existing : List Str) (todos : List Task)
    (issue : Issue) :
    createStep config existing todos issue = todos ∨
    createStep config existing todos issue = todos ++ [issueTask config issue] := by
  unfold createStep
  split
  · left; rfl
  · split
    · left; rfl
    · right; rfl

/-- The first loop appends to-dos made for listed issues. -/
theorem foldl_createStep_shape (config : Config) (existing : List Str)
    (issues : List Issue) (todos : List Task) :
    ∃ added, issues.foldl (createStep config existing) todos = todos ++ added ∧
      ∀ t ∈ added, ∃ i ∈ issues, t = issueTask config i := by
  induction issues generalizing todos with
  | nil => exact ⟨[], by simp, by simp⟩
  | cons i l ih =>
    rw [List.foldl_cons]
    obtain ⟨added, h1, h2⟩ := ih (createStep config existing todos i)
    rcases createStep_shape config existing todos i with e | e
    · rw [e] at h1 ⊢
      exact ⟨added, h1, fun t ht => by
        obtain ⟨j, hj, e⟩ := h2 t ht
        exact ⟨j, List.mem_cons_of_mem _ hj, e⟩⟩
    · rw [e] at h1 ⊢
      refine ⟨issueTask config i :: added, by rw [h1]; simp, ?_⟩
      intro t ht
      rcases List.mem_cons.mp ht with rfl | ht
      · exact ⟨i, by simp, rfl⟩
      · obtain ⟨j, hj, e⟩ := h2 t ht
        exact ⟨j, List.mem_cons_of_mem _ hj, e⟩

theorem contains_issueTask (config : Config) (issue : Issue) :
    contains (issueTask config issue).notes (MARKER ++ issue.key) = true :=
  contains_iff.mpr (MARKER_infix_annotate _ _)

/-- After the first loop the notes of some to-do contain the annotation of
every listed issue that is not in `existingJiraKeys`. -/
theorem foldl_createStep_covers (config : Config) (existing : List Str)
    (issues : List Issue) (todos : List Task) :
    ∀ i ∈ issues, i.key ∉ existing →
      ∃ t ∈ issues.foldl (createStep config existing) todos,
        contains t.notes (MARKER ++ i.key) = true := by
  induction issues generalizing todos with
  | nil => simp
  | cons j l ih =>
    intro i hi hne
    rw [List.foldl_cons]
    rcases List.mem_cons.mp hi with rfl | hi
    · obtain ⟨added, h1, _⟩ := foldl_createStep_shape config existing l
        (createStep config existing todos i)
      rw [h1]
      have : ∃ t ∈ createStep config existing todos i,
          contains t.notes (MARKER ++ i.key) = true := by
        unfold createStep
        rw [if_neg hne]
        split
        · rename_i h
          simpa using h
        · exact ⟨issueTask config i, by simp, contains_issueTask config i⟩
      obtain ⟨t, ht, hc⟩ := this
      exact ⟨t, List.mem_append_left _ ht, hc⟩
    · exact ih _ i hi hne

/-- The first loop changes nothing when every listed issue is in
`existingJiraKeys` or annotated in the notes of some to-do. -/
theorem foldl_createStep_noop (config : Config) (existing : List Str)
    (issues : List Issue) (todos : List Task)
    (h : ∀ i ∈ issues, i.key ∈ existing ∨
      ∃ t ∈ todos, contains t.notes (MARKER ++ i.key) = true) :
    issues.foldl (createStep config existing) todos = todos := by
  induction issues with
  | nil => rfl
  | cons i l ih =>
    rw [List.foldl_cons]
    have e : createStep config existing todos i = todos := by
      unfold createStep
      rcases h i (by simp) with h1 | h1
      · rw [if_pos h1]
      · split
        · rfl
        · rw [if_pos (by simpa using h1)]
    rw [e]
    exact ih (fun j hj => h j (List.mem_cons_of_mem _ hj))

end Jira2Things

namespace Jira2Things

/-! ### The second loop -/

theorem Advanced.refl (todos : List Task) : Advanced todos todos := by
  induction todos with
  | nil => exact List.Forall₂.nil
  | cons t ts ih => exact List.Forall₂.cons ⟨rfl, rfl, id⟩ ih

theorem Advanced.trans {a b c : List Task} (h1 : Advanced a b) (h2 : Advanced b c) :
    Advanced a c := by
  unfold Advanced at *
  induction h1 generalizing c with
  | nil => cases h2; exact List.Forall₂.nil
  | cons hab _ ih =>
    cases h2 with
    | cons hbc h2 =>
      exact List.Forall₂.cons ⟨hbc.1.trans hab.1, hbc.2.1.trans hab.2.1,
        fun h => hbc.2.2 (hab.2.2 h)⟩ (ih h2)

theorem Advanced.mem_right {a b : List Task} (h : Advanced a b) :
    ∀ t' ∈ b, ∃ t ∈ a, t'.title = t.title ∧ t'.notes = t.notes ∧
      (t.completed = true → t'.completed = true) := by
  unfold Advanced at h
  induction h with
  | nil => simp
  | cons hab _ ih =>
    intro t' ht'
    rcases List.mem_cons.mp ht' with rfl | ht'
    · exact ⟨_, by simp, hab⟩
    · obtain ⟨t, ht, hr⟩ := ih t' ht'
      exact ⟨t, List.mem_cons_of_mem _ ht, hr⟩

theorem Advanced.mem_left {a b : List Task} (h : Advanced a b) :
    ∀ t ∈ a, ∃ t' ∈ b, t'.title = t.title ∧ t'.notes = t.notes ∧
      (t.completed = true → t'.completed = true) := by
  unfold Advanced at h
  induction h with
  | nil => simp
  | cons hab _ ih =>
    intro t ht
    rcases List.mem_cons.mp ht with rfl | ht
    · exact ⟨_, by simp, hab⟩
    · obtain ⟨t', ht', hr⟩ := ih t ht
      exact ⟨t', List.mem_cons_of_mem _ ht', hr⟩

theorem Advanced.notes {a b : List Task} (h : Advanced a b) :
    b.map Task.notes = a.map Task.notes := by
  unfold Advanced at h
  induction h with
  | nil => rfl
  | cons hab _ ih => simp [hab.2.1, ih]

theorem completeScript_advanced (jiraKey : Str) (todos : List Task) :
    Advanced todos (completeScript jiraKey todos).1 := by
  induction todos with
  | nil => exact List.Forall₂.nil
  | cons t ts ih =>
    by_cases h : contains t.notes (MARKER ++ jiraKey) = true
    · simp only [completeScript, h, if_true]
      exact List.Forall₂.cons ⟨rfl, rfl, fun _ => rfl⟩ (Advanced.refl ts)
    · simp only [completeScript, h, if_false]
      exact List.Forall₂.cons ⟨rfl, rfl, id⟩ ih

theorem staleStep_advanced (current : List Str) (todos : List Task) (jiraKey : Str) :
    Advanced todos (staleStep current todos jiraKey) := by
  unfold staleStep
  split
  · exact Advanced.refl _
  · exact completeScript_advanced _ _

theorem foldl_staleStep_advanced (current : List Str) (keys : List Str)
    (todos : List Task) : Advanced todos (keys.foldl (staleStep current) todos) := by
  induction keys generalizing todos with
  | nil => exact Advanced.refl _
  | cons k ks ih => exact (staleStep_advanced current todos k).trans (ih _)

theorem mem_openKeysScript {todos : List Task} {x : Str} :
    x ∈ openKeysScript todos ↔
      ∃ t ∈ todos, t.completed = false ∧ extractKey t.notes = some x := by
  unfold openKeysScript
  rw [List.mem_filterMap]
  constructor
  · rintro ⟨t, ht, h⟩
    by_cases hc : t.completed = true
    · simp [hc] at h
    · simp only [hc, Bool.false_eq_true, if_false] at h
      exact ⟨t, ht, by simpa using hc, h⟩
  · rintro ⟨t, ht, hc, h⟩
    exact ⟨t, ht, by simp [hc, h]⟩

theorem mem_completedKeysScript {todos : List Task} {x : Str} :
    x ∈ completedKeysScript todos ↔
      ∃ t ∈ todos, t.completed = true ∧ extractKey t.notes = some x := by
  unfold completedKeysScript
  rw [List.mem_filterMap]
  constructor
  · rintro ⟨t, ht, h⟩
    by_cases hc : t.completed = true
    · simp only [hc, if_true] at h
      exact ⟨t, ht, hc, h⟩
    · simp [hc] at h
  · rintro ⟨t, ht, hc, h⟩
    exact ⟨t, ht, by simp [hc, h]⟩

theorem Advanced.openKeys {a b : List Task} (h : Advanced a b) {x : Str}
    (hx : x ∈ openKeysScript b) : x ∈ openKeysScript a := by
  obtain ⟨t', ht', hc, he⟩ := mem_openKeysScript.mp hx
  obtain ⟨t, ht, _, hn, hm⟩ := h.mem_right t' ht'
  refine mem_openKeysScript.mpr ⟨t, ht, ?_, by rw [← hn]; exact he⟩
  by_contra hcc
  have := hm (by simpa using hcc)
  rw [this] at hc
  exact absurd hc (by decide)

/-- The completion script changes nothing for this key: the first to-do whose
notes contain the annotation, if any, is completed. -/
theorem completeScript_noop_advanced {a b : List Task} (h : Advanced a b) (jiraKey : Str)
    (hd : (completeScript jiraKey a).1 = a) : (completeScript jiraKey b).1 = b := by
  unfold Advanced at h
  induction h with
  | nil => rfl
  | @cons t t' ts ts' hab _ ih =>
    by_cases hc : contains t.notes (MARKER ++ jiraKey) = true
    · have hc' : contains t'.notes (MARKER ++ jiraKey) = true := by rw [hab.2.1]; exact hc
      simp only [completeScript, hc, if_true, List.cons.injEq, and_true] at hd
      have htc : t.completed = true := by rw [← hd]
      have := hab.2.2 htc
      simp only [completeScript, hc', if_true, List.cons.injEq, and_true]
      cases t'
      simp_all
    · have hc' : ¬ contains t'.notes (MARKER ++ jiraKey) = true := by rw [hab.2.1]; exact hc
      simp only [completeScript, hc, Bool.false_eq_true, if_false, List.cons.injEq,
        true_and] at hd
      simp only [completeScript, hc', Bool.false_eq_true, if_false, List.cons.injEq, true_and]
      exact ih hd

theorem completeScript_idem (jiraKey : Str) (todos : List Task) :
    (completeScript jiraKey (completeScript jiraKey todos).1).1 =
      (completeScript jiraKey todos).1 := by
  induction todos with
  | nil => rfl
  | cons t ts ih =>
    by_cases hc : contains t.notes (MARKER ++ jiraKey) = true
    · simp [completeScript, hc]
    · simp [completeScript, hc, ih]

/-- After the second loop the completion script changes nothing for a key the
loop has handled. -/
theorem foldl_staleStep_done (current : List Str) (keys : List Str) (todos : List Task)
    (k : Str) (hk : k ∈ keys) (hc : k ∉ current) :
    (completeScript k (keys.foldl (staleStep current) todos)).1 =
      keys.foldl (staleStep current) todos := by
  induction keys generalizing todos with
  | nil => simp at hk
  | cons k0 ks ih =>
    rw [List.foldl_cons]
    by_cases hin : k ∈ ks
    · exact ih _ hin
    · have e : k0 = k := by
        rcases List.mem_cons.mp hk with h | h
        · exact h.symm
        · exact absurd h hin
      subst e
      apply completeScript_noop_advanced (foldl_staleStep_advanced current ks _)
      unfold staleStep
      rw [if_neg hc]
      exact completeScript_idem _ _

theorem foldl_staleStep_noop (current : List Str) (keys : List Str) (todos : List Task)
    (h : ∀ k ∈ keys, k ∉ current → (completeScript k todos).1 = todos) :
    keys.foldl (staleStep current) todos = todos := by
  induction keys with
  | nil => rfl
  | cons k ks ih =>
    rw [List.foldl_cons]
    have e : staleStep current todos k = todos := by
      unfold staleStep
      split
      · rfl
      · rename_i hc
        exact h k (by simp) hc
    rw [e]
    exact ih (fun x hx => h x (List.mem_cons_of_mem _ hx))

theorem completeScript_noop_of_completed (jiraKey : Str) (todos : List Task)
    (h : ∀ t ∈ todos, contains t.notes (MARKER ++ jiraKey) = true → t.completed = true) :
    (completeScript jiraKey todos).1 = todos := by
  induction todos with
  | nil => rfl
  | cons t ts ih =>
    by_cases hc : contains t.notes (MARKER ++ jiraKey) = true
    · have := h t (by simp) hc
      simp only [completeScript, hc, if_true, List.cons.injEq, and_true]
      cases t
      simp_all
    · simp only [completeScript, hc, Bool.false_eq_true, if_false, List.cons.injEq, true_and]
      exact ih (fun u hu => h u (List.mem_cons_of_mem _ hu))

end Jira2Things

namespace Jira2Things

/-! ## Idempotence of the pull pass -/

theorem extractKey_issueTask (config : Config) (issue : Issue)
    (h : contains (issueNotes config issue) MARKER = false) :
    extractKey (issueTask config issue).notes = some issue.key :=
  extractKey_annotate h

theorem extractKey_isSome_of_contains {n k : Str} (h : contains n (MARKER ++ k) = true) :
    ∃ x, extractKey n = some x := by
  have h1 : MARKER <:+: n := (List.prefix_append MARKER k).isInfix.trans (contains_iff.mp h)
  obtain ⟨a, x, hax⟩ := cut_isSome_of_infix h1
  exact ⟨x, extractKey_eq_some.mpr ⟨a, hax⟩⟩

/-- The open keys after the first loop are open keys of the start or keys of
listed issues. -/
theorem openKeys_foldl_createStep (config : Config) (existing : List Str)
    (issues : List Issue) (todos : List Task)
    (hN : ∀ i ∈ issues, contains (issueNotes config i) MARKER = false) {x : Str}
    (hx : x ∈ openKeysScript (issues.foldl (createStep config existing) todos)) :
    x ∈ openKeysScript todos ∨ x ∈ issues.map Issue.key := by
  obtain ⟨added, h1, h2⟩ := foldl_createStep_shape config existing issues todos
  rw [h1] at hx
  obtain ⟨t, ht, hc, he⟩ := mem_openKeysScript.mp hx
  rcases List.mem_append.mp ht with ht | ht
  · left
    exact mem_openKeysScript.mpr ⟨t, ht, hc, he⟩
  · right
    obtain ⟨i, hi, rfl⟩ := h2 t ht
    rw [extractKey_issueTask config i (hN i hi)] at he
    simp only [Option.some.injEq] at he
    rw [← he]
    exact List.mem_map_of_mem _ hi

theorem pullTodos_idempotent (nl : Bool) (order1 order2 : List Str → List Str)
    (config : Config) (issues : List Issue) (todos : List Task)
    (hO1 : ∀ l, (order1 l).Perm l) (hO2 : ∀ l, (order2 l).Perm l)
    (hL : ∀ x ∈ openKeysScript todos, plainKey x = true)
    (hR : ∀ i ∈ issues, plainKey i.key = true)
    (hN : ∀ i ∈ issues, contains (issueNotes config i) MARKER = false) :
    pullTodos nl order2 config issues (pullTodos nl order1 config issues todos) =
      pullTodos nl order1 config issues todos := by
  have hadv : Advanced
      (issues.foldl (createStep config (parseKeys (osascriptList nl (openKeysScript todos))))
        todos) (pullTodos nl order1 config issues todos) :=
    foldl_staleStep_advanced _ _ _
  obtain ⟨added, hshape, _⟩ := foldl_createStep_shape config
    (parseKeys (osascriptList nl (openKeysScript todos))) issues todos
  -- every open key of the result is plain
  have hopen : ∀ x ∈ openKeysScript (pullTodos nl order1 config issues todos),
      x ∈ openKeysScript todos ∨ x ∈ issues.map Issue.key :=
    fun x hx => openKeys_foldl_createStep config _ issues todos hN (hadv.openKeys hx)
  have hplain : ∀ x ∈ openKeysScript (pullTodos nl order1 config issues todos),
      plainKey x = true := by
    intro x hx
    rcases hopen x hx with h | h
    · exact hL x h
    · obtain ⟨i, hi, rfl⟩ := List.mem_map.mp h
      exact hR i hi
  -- every listed issue is annotated in the result
  have hcov : ∀ i ∈ issues, ∃ t ∈ pullTodos nl order1 config issues todos,
      contains t.notes (MARKER ++ i.key) = true := by
    intro i hi
    have h1 : ∃ t ∈ issues.foldl
        (createStep config (parseKeys (osascriptList nl (openKeysScript todos)))) todos,
        contains t.notes (MARKER ++ i.key) = true := by
      by_cases he : i.key ∈ parseKeys (osascriptList nl (openKeysScript todos))
      · rcases (mem_parseKeys_osascriptList hL).mp he with h | ⟨_, _, h⟩
        · obtain ⟨t, ht, _, hk⟩ := mem_openKeysScript.mp h
          refine ⟨t, ?_, contains_iff.mpr (infix_of_extractKey hk)⟩
          rw [hshape]
          exact List.mem_append_left _ ht
        · exact absurd h (plainKey_iff.mp (hR i hi)).1
      · exact foldl_createStep_covers config _ issues todos i hi he
    obtain ⟨t, ht, hc⟩ := h1
    obtain ⟨t', ht', _, hn, _⟩ := hadv.mem_left t ht
    exact ⟨t', ht', by rw [hn]; exact hc⟩
  show List.foldl _ (List.foldl _ (pullTodos nl order1 config issues todos) issues) _ = _
  rw [foldl_createStep_noop config _ issues _ (fun i hi => Or.inr (hcov i hi))]
  apply foldl_staleStep_noop
  intro k hk hkR
  have hk2 : k ∈ parseKeys (osascriptList nl
      (openKeysScript (pullTodos nl order1 config issues todos))) :=
    List.mem_dedup.mp ((hO2 _).mem_iff.mp hk)
  rcases (mem_parseKeys_osascriptList hplain).mp hk2 with h | ⟨hnil, _, rfl⟩
  · -- the key was handled by the second loop of the first run
    have h1 : k ∈ openKeysScript todos := by
      rcases hopen k h with h1 | h1
      · exact h1
      · exact absurd h1 hkR
    have h2 : k ∈ order1 (parseKeys (osascriptList nl (openKeysScript todos))).dedup :=
      (hO1 _).mem_iff.mpr (List.mem_dedup.mpr
        ((mem_parseKeys_osascriptList hL).mpr (Or.inl h1)))
    exact foldl_staleStep_done _ _ _ k h2 hkR
  · -- the empty key: every annotated to-do is completed
    apply completeScript_noop_of_completed
    intro t ht hc
    obtain ⟨x, hx⟩ := extractKey_isSome_of_contains hc
    by_contra hnc
    have : x ∈ openKeysScript (pullTodos nl order1 config issues todos) :=
      mem_openKeysScript.mpr ⟨t, ht, by simpa using hnc, hx⟩
    rw [hnil] at this
    simp at this

end Jira2Things

namespace Jira2Things

set_option maxRecDepth 200000 in
/-- C3, as stated, fails when the description of a listed issue holds the
marker: the to-do created for `PROJ-1` by the first run is listed by the second
run under the key `"PROJ-9\n\nJIRA-ID: PROJ-1"`, which no issue has, and the
second run completes it. -/
theorem pull_twice_completes_created_todo :
    openKeysScript (syncJiraToThings (noFail true) id demoConfig
      [demoIssue "PROJ-7", quotingIssue]
      (localWorld [⟨"t".toList, "JIRA-ID: PROJ-7".toList, false⟩])).2.todos =
      ["PROJ-7".toList, "PROJ-9\n\nJIRA-ID: PROJ-1".toList] ∧
    (syncJiraToThings (noFail true) id demoConfig [demoIssue "PROJ-7", quotingIssue]
      (localWorld [⟨"t".toList, "JIRA-ID: PROJ-7".toList, false⟩])).2.todos.map
      Task.completed = [false, false] ∧
    (syncJiraToThings (noFail true) id demoConfig [demoIssue "PROJ-7", quotingIssue]
      (syncJiraToThings (noFail true) id demoConfig [demoIssue "PROJ-7", quotingIssue]
        (localWorld [⟨"t".toList, "JIRA-ID: PROJ-7".toList, false⟩])).2).2.todos.map
      Task.completed = [false, true] := by
  decide

/-- C3 (amended): when the keys read from the to-dos that are not completed and
the keys of the listed issues are not empty and free of white space, and the
notes built for a listed issue do not contain `"JIRA-ID: "`, then with no
failing call a second `syncJiraToThings` on the result of the first, with the
same listing and whatever orders, returns no error and leaves the to-dos as
the first run left them. -/
theorem pull_idempotent (nl : Bool) (order1 order2 : List Str → List Str)
    (config : Config) (issues : List Issue) (w : World)
    (hO1 : ∀ l, (order1 l).Perm l) (hO2 : ∀ l, (order2 l).Perm l)
    (hL : ∀ x ∈ openKeysScript w.todos, plainKey x = true)
    (hR : ∀ i ∈ issues, plainKey i.key = true)
    (hN : ∀ i ∈ issues, contains (issueNotes config i) MARKER = false) :
    (syncJiraToThings (noFail nl) order2 config issues
      (syncJiraToThings (noFail nl) order1 config issues w).2).1 = none ∧
    (syncJiraToThings (noFail nl) order2 config issues
      (syncJiraToThings (noFail nl) order1 config issues w).2).2.todos =
      (syncJiraToThings (noFail nl) order1 config issues w).2.todos := by
  refine ⟨(syncJiraToThings_noFail nl order2 config issues _).1, ?_⟩
  rw [(syncJiraToThings_noFail nl order2 config issues _).2,
    (syncJiraToThings_noFail nl order1 config issues w).2]
  exact pullTodos_idempotent nl order1 order2 config issues w.todos hO1 hO2 hL hR hN

theorem pull_idempotent_witness :
    (syncJiraToThings (noFail true) List.reverse demoConfig
      [demoIssue "PROJ-1", demoIssue "PROJ-2"]
      (syncJiraToThings (noFail true) id demoConfig [demoIssue "PROJ-1", demoIssue "PROJ-2"]
        (localWorld [⟨"t".toList, "JIRA-ID: PROJ-3".toList, false⟩,
          ⟨"u".toList, "x\n\nJIRA-ID: PROJ-2".toList, false⟩])).2).2.todos =
      (syncJiraToThings (noFail true) id demoConfig [demoIssue "PROJ-1", demoIssue "PROJ-2"]
        (localWorld [⟨"t".toList, "JIRA-ID: PROJ-3".toList, false⟩,
          ⟨"u".toList, "x\n\nJIRA-ID: PROJ-2".toList, false⟩])).2.todos :=
  (pull_idempotent true id List.reverse demoConfig [demoIssue "PROJ-1", demoIssue "PROJ-2"]
    (localWorld [⟨"t".toList, "JIRA-ID: PROJ-3".toList, false⟩,
      ⟨"u".toList, "x\n\nJIRA-ID: PROJ-2".toList, false⟩])
    (fun l => List.Perm.refl l) (fun l => List.reverse_perm l)
    (by decide) (by decide) (by decide)).2

end Jira2Things

namespace Jira2Things

/-! ## Stale keys -/

theorem completeScript_at (jiraKey : Str) (pre : List Task) (t : Task) (post : List Task)
    (hpre : ∀ u ∈ pre, contains u.notes (MARKER ++ jiraKey) = false)
    (ht : contains t.notes (MARKER ++ jiraKey) = true) :
    (completeScript jiraKey (pre ++ t :: post)).1 =
      pre ++ { t with completed := true } :: post := by
  induction pre with
  | nil => simp [completeScript, ht]
  | cons u us ih =>
    have hu := hpre u (by simp)
    simp only [List.cons_append, completeScript, hu, Bool.false_eq_true, if_false,
      List.cons.injEq, true_and]
    exact ih (fun x hx => hpre x (List.mem_cons_of_mem _ hx))

/-- The key that the to-do of an issue carries is the key of the issue or holds
a line feed. -/
theorem extractKey_issueTask_cases (config : Config) (issue : Issue) {x : Str}
    (h : extractKey (issueTask config issue).notes = some x) :
    x = issue.key ∨ '\n' ∈ x := by
  obtain ⟨a, ha⟩ := extractKey_eq_some.mp h
  rcases cut_annotate ha with ⟨h1, _⟩ | ⟨_, d, h1⟩
  · exact Or.inl h1
  · right; rw [h1]; simp

/-- Once the key is carried by the first to-do holding its annotation and by no
later one, the completion script leaves every to-do carrying it completed. -/
theorem completeScript_settles (k : Str) (todos : List Task) (pre : List Str) (n : Str)
    (post : List Str) (hn : todos.map Task.notes = pre ++ n :: post)
    (hpre : ∀ a ∈ pre, contains a (MARKER ++ k) = false)
    (hk : extractKey n = some k) (hpost : ∀ b ∈ post, extractKey b ≠ some k) :
    (∀ t ∈ (completeScript k todos).1, extractKey t.notes = some k → t.completed = true) ∧
    (∃ t ∈ (completeScript k todos).1, extractKey t.notes = some k ∧ t.completed = true) := by
  obtain ⟨l1, l2, rfl, h1, h2⟩ := List.map_eq_append_iff.mp hn
  obtain ⟨t, l3, rfl, h3, h4⟩ := List.map_eq_cons_iff.mp h2
  have hpre' : ∀ u ∈ l1, contains u.notes (MARKER ++ k) = false := by
    intro u hu
    exact hpre _ (by rw [← h1]; exact List.mem_map_of_mem _ hu)
  have ht : contains t.notes (MARKER ++ k) = true := by
    rw [h3]; exact contains_iff.mpr (infix_of_extractKey hk)
  rw [completeScript_at k l1 t l3 hpre' ht]
  constructor
  · intro u hu he
    rcases List.mem_append.mp hu with hu | hu
    · have := contains_iff.mpr (infix_of_extractKey he)
      rw [hpre' u hu] at this
      exact absurd this (by decide)
    · rcases List.mem_cons.mp hu with rfl | hu
      · rfl
      · exact absurd he (hpost _ (by rw [← h4]; exact List.mem_map_of_mem _ hu))
  · exact ⟨{ t with completed := true }, by simp, by rw [← hk, ← h3], rfl⟩

theorem settled_advanced {a b : List Task} (h : Advanced a b) (k : Str)
    (hs : (∀ t ∈ a, extractKey t.notes = some k → t.completed = true) ∧
      (∃ t ∈ a, extractKey t.notes = some k ∧ t.completed = true)) :
    (∀ t ∈ b, extractKey t.notes = some k → t.completed = true) ∧
    (∃ t ∈ b, extractKey t.notes = some k ∧ t.completed = true) := by
  constructor
  · intro t' ht' he
    obtain ⟨t, ht, _, hn, hm⟩ := h.mem_right t' ht'
    exact hm (hs.1 t ht (by rw [← hn]; exact he))
  · obtain ⟨t, ht, he, hc⟩ := hs.2
    obtain ⟨t', ht', _, hn, hm⟩ := h.mem_left t ht
    exact ⟨t', ht', by rw [hn]; exact he, hm hc⟩

theorem foldl_staleStep_settles (current : List Str) (keys : List Str) (k : Str)
    (hk : k ∈ keys) (hc : k ∉ current) (todos : List Task) (pre : List Str) (n : Str)
    (post : List Str) (hn : todos.map Task.notes = pre ++ n :: post)
    (hpre : ∀ a ∈ pre, contains a (MARKER ++ k) = false)
    (hkn : extractKey n = some k) (hpost : ∀ b ∈ post, extractKey b ≠ some k) :
    (∀ t ∈ keys.foldl (staleStep current) todos,
      extractKey t.notes = some k → t.completed = true) ∧
    (∃ t ∈ keys.foldl (staleStep current) todos,
      extractKey t.notes = some k ∧ t.completed = true) := by
  induction keys generalizing todos with
  | nil => simp at hk
  | cons k0 ks ih =>
    rw [List.foldl_cons]
    by_cases e : k0 = k
    · subst e
      apply settled_advanced (foldl_staleStep_advanced current ks _)
      unfold staleStep
      rw [if_neg hc]
      exact completeScript_settles k0 todos pre n post hn hpre hkn hpost
    · have hin : k ∈ ks := by
        rcases List.mem_cons.mp hk with h | h
        · exact absurd h.symm e
        · exact h
      apply ih hin
      rw [(staleStep_advanced current todos k0).notes]
      exact hn

theorem pullTodos_stale (nl : Bool) (order : List Str → List Str) (config : Config)
    (issues : List Issue) (todos : List Task) (k : Str)
    (hOrder : ∀ l, (order l).Perm l)
    (hPlain : ∀ x ∈ openKeysScript todos, plainKey x = true)
    (hk : k ∈ openKeysScript todos) (hkR : k ∉ issues.map Issue.key)
    (hU : todos.countP (fun t => contains t.notes (MARKER ++ k)) = 1) :
    k ∉ openKeysScript (pullTodos nl order config issues todos) ∧
    k ∈ completedKeysScript (pullTodos nl order config issues todos) := by
  obtain ⟨t, ht, htc, hte⟩ := mem_openKeysScript.mp hk
  obtain ⟨pre, post, rfl⟩ := List.append_of_mem ht
  have htk : contains t.notes (MARKER ++ k) = true :=
    contains_iff.mpr (infix_of_extractKey hte)
  rw [List.countP_append, List.countP_cons_of_pos (p := fun t => contains t.notes (MARKER ++ k))
    post htk] at hU
  have hpre0 : pre.countP (fun t => contains t.notes (MARKER ++ k)) = 0 := by omega
  have hpost0 : post.countP (fun t => contains t.notes (MARKER ++ k)) = 0 := by omega
  rw [List.countP_eq_zero] at hpre0 hpost0
  obtain ⟨added, hshape, hadded⟩ := foldl_createStep_shape config
    (parseKeys (osascriptList nl (openKeysScript (pre ++ t :: post)))) issues
    (pre ++ t :: post)
  have hmem : k ∈ order (parseKeys (osascriptList nl
      (openKeysScript (pre ++ t :: post)))).dedup :=
    (hOrder _).mem_iff.mpr (List.mem_dedup.mpr
      ((mem_parseKeys_osascriptList hPlain).mpr (Or.inl hk)))
  have hs := foldl_staleStep_settles (issues.map Issue.key) _ k hmem hkR
    (issues.foldl (createStep config
      (parseKeys (osascriptList nl (openKeysScript (pre ++ t :: post))))) (pre ++ t :: post))
    (pre.map Task.notes) t.notes ((post ++ added).map Task.notes)
    (by rw [hshape]; simp)
    (by
      intro a ha
      obtain ⟨u, hu, rfl⟩ := List.mem_map.mp ha
      simpa using hpre0 u hu)
    hte
    (by
      intro b hb he
      obtain ⟨u, hu, rfl⟩ := List.mem_map.mp hb
      rcases List.mem_append.mp hu with hu | hu
      · exact hpost0 u hu (contains_iff.mpr (infix_of_extractKey he))
      · obtain ⟨i, hi, rfl⟩ := hadded u hu
        rcases extractKey_issueTask_cases config i he with h | h
        · exact hkR (by rw [h]; exact List.mem_map_of_mem _ hi)
        · exact newline_not_mem_of_plain (hPlain k hk) h)
  constructor
  · intro ho
    obtain ⟨u, hu, huc, hue⟩ := mem_openKeysScript.mp ho
    have := hs.1 u hu hue
    rw [this] at huc
    exact absurd huc (by decide)
  · obtain ⟨u, hu, hue, huc⟩ := hs.2
    exact mem_completedKeysScript.mpr ⟨u, hu, huc, hue⟩

end Jira2Things

namespace Jira2Things

set_option maxRecDepth 200000 in
/-- C2, as stated, fails when the annotation of the stale key is a prefix of
another annotation: with open to-dos for `PROJ-12` and `PROJ-1`, in this order,
and only `PROJ-12` still listed, the completion script for `PROJ-1` completes
the to-do of `PROJ-12`, whose notes contain `"JIRA-ID: PROJ-1"`, and the to-do of
`PROJ-1` stays open. -/
theorem stale_key_completes_wrong_todo :
    "PROJ-1".toList ∈ openKeysScript
      [⟨"a".toList, "JIRA-ID: PROJ-12".toList, false⟩,
       ⟨"b".toList, "JIRA-ID: PROJ-1".toList, false⟩] ∧
    "PROJ-1".toList ∉ [demoIssue "PROJ-12"].map Issue.key ∧
    (syncJiraToThings (noFail true) id demoConfig [demoIssue "PROJ-12"]
      (localWorld [⟨"a".toList, "JIRA-ID: PROJ-12".toList, false⟩,
        ⟨"b".toList, "JIRA-ID: PROJ-1".toList, false⟩])).2.todos =
      [⟨"a".toList, "JIRA-ID: PROJ-12".toList, true⟩,
       ⟨"b".toList, "JIRA-ID: PROJ-1".toList, false⟩] ∧
    "PROJ-1".toList ∈ openKeysScript
      (syncJiraToThings (noFail true) id demoConfig [demoIssue "PROJ-12"]
        (localWorld [⟨"a".toList, "JIRA-ID: PROJ-12".toList, false⟩,
          ⟨"b".toList, "JIRA-ID: PROJ-1".toList, false⟩])).2.todos ∧
    "PROJ-1".toList ∉ completedKeysScript
      (syncJiraToThings (noFail true) id demoConfig [demoIssue "PROJ-12"]
        (localWorld [⟨"a".toList, "JIRA-ID: PROJ-12".toList, false⟩,
          ⟨"b".toList, "JIRA-ID: PROJ-1".toList, false⟩])).2.todos := by
  decide

/-- C2 (amended): when the keys read from the to-dos that are not completed are
not empty and free of white space, every key that is read from such a to-do, is
not in the listing, and whose annotation `"JIRA-ID: " ++ key` is contained in
the notes of exactly one to-do, is after `syncJiraToThings` (no call failing,
whatever the order of the second loop) absent from the keys of the to-dos that
are not completed and present among the keys of the completed ones. -/
theorem stale_tasks_completed (nl : Bool) (order : List Str → List Str) (config : Config)
    (issues : List Issue) (w : World) (k : Str)
    (hOrder : ∀ l, (order l).Perm l)
    (hPlain : ∀ x ∈ openKeysScript w.todos, plainKey x = true)
    (hk : k ∈ openKeysScript w.todos) (hkR : k ∉ issues.map Issue.key)
    (hU : w.todos.countP (fun t => contains t.notes (MARKER ++ k)) = 1) :
    k ∉ openKeysScript (syncJiraToThings (noFail nl) order config issues w).2.todos ∧
    k ∈ completedKeysScript (syncJiraToThings (noFail nl) order config issues w).2.todos := by
  rw [(syncJiraToThings_noFail nl order config issues w).2]
  exact pullTodos_stale nl order config issues w.todos k hOrder hPlain hk hkR hU

theorem stale_tasks_completed_witness :
    "PROJ-3".toList ∉ openKeysScript
      (syncJiraToThings (noFail true) List.reverse demoConfig [demoIssue "PROJ-2"]
        (localWorld [⟨"t".toList, "JIRA-ID: PROJ-3".toList, false⟩,
          ⟨"u".toList, "x\n\nJIRA-ID: PROJ-2".toList, false⟩])).2.todos ∧
    "PROJ-3".toList ∈ completedKeysScript
      (syncJiraToThings (noFail true) List.reverse demoConfig [demoIssue "PROJ-2"]
        (localWorld [⟨"t".toList, "JIRA-ID: PROJ-3".toList, false⟩,
          ⟨"u".toList, "x\n\nJIRA-ID: PROJ-2".toList, false⟩])).2.todos :=
  stale_tasks_completed true List.reverse demoConfig [demoIssue "PROJ-2"]
    (localWorld [⟨"t".toList, "JIRA-ID: PROJ-3".toList, false⟩,
      ⟨"u".toList, "x\n\nJIRA-ID: PROJ-2".toList, false⟩]) "PROJ-3".toList
    (fun l => List.reverse_perm l) (by decide) (by decide) (by decide) (by decide)

end Jira2Things

namespace Jira2Things

/-! ## Coverage of the listed issues -/

theorem J_not_mem_MARKER_tail : 'J' ∉ MARKER.tail := by decide

theorem MARKER_cons : MARKER = 'J' :: MARKER.tail := by decide

/-- In notes annotated with a key, when neither the notes nor the key hold the
marker, only the annotations of the prefixes of the key are contained. -/
theorem prefix_of_contains_annotate {notes jiraKey k : Str}
    (hn : contains notes MARKER = false) (hj : ¬ MARKER <:+: jiraKey)
    (hc : contains (annotate notes jiraKey) (MARKER ++ k) = true) : k <+: jiraKey := by
  obtain ⟨u, v, huv⟩ := contains_iff.mp hc
  obtain ⟨a, x, hax⟩ := cut_isSome_of_infix
    ((List.prefix_append MARKER jiraKey).isInfix.trans (MARKER_infix_annotate notes jiraKey))
  have hcut : cut MARKER (annotate notes jiraKey) = some (notes ++ ['\n', '\n'], jiraKey) := by
    rcases cut_annotate hax with ⟨rfl, rfl⟩ | ⟨h1, _⟩
    · exact hax
    · exact absurd h1 (contains_eq_false.mp hn)
  have hs : annotate notes jiraKey = u ++ MARKER ++ (k ++ v) := by
    rw [← huv]; simp [List.append_assoc]
  have hlen := cut_first hcut hs
  have e : (notes ++ ['\n', '\n']) ++ (MARKER ++ jiraKey) = u ++ (MARKER ++ (k ++ v)) := by
    have h1 := (annotate_eq notes jiraKey).symm.trans hs
    simpa [List.append_assoc] using h1
  have key : ∀ d, MARKER ++ jiraKey = d ++ (MARKER ++ (k ++ v)) → k <+: jiraKey := by
    intro d hd
    cases d with
    | nil => exact ⟨v, (List.append_cancel_left hd).symm⟩
    | cons d0 d' =>
      exfalso
      rcases List.append_eq_append_iff.mp hd with ⟨a', h1, h2⟩ | ⟨c', h1, h2⟩
      · -- d0 :: d' = MARKER ++ a'
        exact hj ⟨a', k ++ v, by rw [h2]; simp [List.append_assoc]⟩
      · -- MARKER = (d0 :: d') ++ c'
        cases c' with
        | nil =>
          simp only [List.nil_append] at h2
          exact hj ⟨[], k ++ v, by rw [← h2]; simp⟩
        | cons h c'' =>
          have hh : h = 'J' := by
            rw [MARKER_cons] at h2
            simp only [List.cons_append, List.cons.injEq] at h2
            exact h2.1.symm
          have ht : MARKER.tail = d' ++ h :: c'' := by
            rw [h1]; rfl
          exact J_not_mem_MARKER_tail (by rw [ht, hh]; simp)
  rcases List.append_eq_append_iff.mp e with ⟨d, h1, h2⟩ | ⟨d, h1, h2⟩
  · -- u = (notes ++ nn) ++ d
    exact key d h2
  · -- notes ++ nn = u ++ d
    have hd : d = [] := by
      have := congrArg List.length h1
      simp only [List.length_append] at this hlen
      exact List.length_eq_zero.mp (by omega)
    subst hd
    exact key [] (by simpa using h2.symm)

theorem not_infix_key_of_issueNotes {config : Config} {issue : Issue}
    (h : contains (issueNotes config issue) MARKER = false) : ¬ MARKER <:+: issue.key := by
  intro hk
  apply contains_eq_false.mp h
  refine hk.trans ?_
  unfold issueNotes
  exact ⟨"Jira Issue: ".toList ++ config.jiraURL ++ "/browse/".toList,
    "\n\n".toList ++ issue.description, by simp [List.append_assoc]⟩

theorem openKeys_append_left {todos added : List Task} {x : Str}
    (h : x ∈ openKeysScript todos) : x ∈ openKeysScript (todos ++ added) := by
  obtain ⟨t, ht, hc, he⟩ := mem_openKeysScript.mp h
  exact mem_openKeysScript.mpr ⟨t, List.mem_append_left _ ht, hc, he⟩

theorem openKeys_foldl_createStep_mono (config : Config) (existing : List Str)
    (issues : List Issue) (todos : List Task) {x : Str} (h : x ∈ openKeysScript todos) :
    x ∈ openKeysScript (issues.foldl (createStep config existing) todos) := by
  obtain ⟨added, h1, _⟩ := foldl_createStep_shape config existing issues todos
  rw [h1]
  exact openKeys_append_left h

/-- After the first loop every listed key is read from a to-do that is not
completed. -/
theorem foldl_createStep_open (config : Config) (existing : List Str) (todos : List Task)
    (hE : ∀ x, x ∈ existing ↔ x ∈ openKeysScript todos)
    (issues : List Issue) (added : List Task)
    (hadded : ∀ t ∈ added, ∃ j, t = issueTask config j ∧
      contains (issueNotes config j) MARKER = false ∧
      ∀ i ∈ issues, i.key ∉ openKeysScript todos → i.key <+: j.key → i.key = j.key)
    (hNew : ∀ i ∈ issues, i.key ∉ openKeysScript todos →
      contains (issueNotes config i) MARKER = false ∧
      ∀ t ∈ todos, contains t.notes (MARKER ++ i.key) = false)
    (hPre : issues.Pairwise (fun j i => j.key ∉ openKeysScript todos →
      i.key ∉ openKeysScript todos → i.key <+: j.key → i.key = j.key)) :
    ∀ i ∈ issues,
      i.key ∈ openKeysScript (issues.foldl (createStep config existing) (todos ++ added)) := by
  induction issues generalizing added with
  | nil => simp
  | cons i rest ih =>
    obtain ⟨hhead, htail⟩ := List.pairwise_cons.mp hPre
    have hNewRest : ∀ i' ∈ rest, i'.key ∉ openKeysScript todos →
        contains (issueNotes config i') MARKER = false ∧
        ∀ t ∈ todos, contains t.notes (MARKER ++ i'.key) = false :=
      fun i' hi' => hNew i' (List.mem_cons_of_mem _ hi')
    have haddedRest : ∀ t ∈ added, ∃ j, t = issueTask config j ∧
        contains (issueNotes config j) MARKER = false ∧
        ∀ i' ∈ rest, i'.key ∉ openKeysScript todos → i'.key <+: j.key → i'.key = j.key := by
      intro t ht
      obtain ⟨j, h1, h2, h3⟩ := hadded t ht
      exact ⟨j, h1, h2, fun i' hi' => h3 i' (List.mem_cons_of_mem _ hi')⟩
    -- the step either leaves the list or appends the to-do of `i`
    have hstep : (createStep config existing (todos ++ added) i = todos ++ added ∧
          i.key ∈ openKeysScript (todos ++ added)) ∨
        (createStep config existing (todos ++ added) i =
            todos ++ (added ++ [issueTask config i]) ∧
          i.key ∉ openKeysScript todos) := by
      unfold createStep
      by_cases he : i.key ∈ existing
      · left
        rw [if_pos he]
        exact ⟨rfl, openKeys_append_left ((hE _).mp he)⟩
      · have hno : i.key ∉ openKeysScript todos := fun h => he ((hE _).mpr h)
        rw [if_neg he]
        by_cases hany : (todos ++ added).any
            (fun t => contains t.notes (MARKER ++ i.key)) = true
        · left
          rw [if_pos hany]
          refine ⟨rfl, ?_⟩
          obtain ⟨t, ht, hc⟩ := List.any_eq_true.mp hany
          rcases List.mem_append.mp ht with ht | ht
          · have := (hNew i (by simp) hno).2 t ht
            rw [this] at hc
            exact absurd hc (by decide)
          · obtain ⟨j, rfl, hj, hp⟩ := hadded t ht
            have hpre : i.key <+: j.key :=
              prefix_of_contains_annotate hj (not_infix_key_of_issueNotes hj) hc
            have hij := hp i (by simp) hno hpre
            refine mem_openKeysScript.mpr ⟨issueTask config j, List.mem_append_right _ ht,
              rfl, ?_⟩
            rw [extractKey_issueTask config j hj, hij]
        · right
          rw [if_neg hany]
          exact ⟨by simp [List.append_assoc], hno⟩
    intro i' hi'
    rw [List.foldl_cons]
    rcases hstep with ⟨e, hopen⟩ | ⟨e, hno⟩
    · rw [e]
      rcases List.mem_cons.mp hi' with rfl | hi'
      · exact openKeys_foldl_createStep_mono config existing rest _ hopen
      · exact ih added haddedRest hNewRest htail i' hi'
    · rw [e]
      have hadded' : ∀ t ∈ added ++ [issueTask config i], ∃ j, t = issueTask config j ∧
          contains (issueNotes config j) MARKER = false ∧
          ∀ i' ∈ rest, i'.key ∉ openKeysScript todos → i'.key <+: j.key →
            i'.key = j.key := by
        intro t ht
        rcases List.mem_append.mp ht with ht | ht
        · exact haddedRest t ht
        · simp only [List.mem_singleton] at ht
          exact ⟨i, ht, (hNew i (by simp) hno).1, fun i' hi' hno' => hhead i' hi' hno hno'⟩
      rcases List.mem_cons.mp hi' with rfl | hi'
      · apply openKeys_foldl_createStep_mono
        refine mem_openKeysScript.mpr ⟨issueTask config i', ?_, rfl,
          extractKey_issueTask config i' (hNew i' (by simp) hno).1⟩
        simp
      · exact ih _ hadded' hNewRest htail i' hi'

/-! ### The second loop and the first holder of an annotation -/

theorem firstHolder_advanced {a b : List Task} (h : Advanced a b) (k : Str) {t' : Task}
    (ht' : firstHolder k b = some t') :
    ∃ t, firstHolder k a = some t ∧ t'.notes = t.notes ∧
      (t.completed = true → t'.completed = true) := by
  unfold Advanced at h
  induction h with
  | nil => simp [firstHolder] at ht'
  | @cons u u' us us' hab _ ih =>
    by_cases hc : contains u.notes (MARKER ++ k) = true
    · have hc' : contains u'.notes (MARKER ++ k) = true := by rw [hab.2.1]; exact hc
      simp only [firstHolder, List.find?_cons, hc', Option.some.injEq] at ht'
      subst ht'
      exact ⟨u, by simp [firstHolder, List.find?_cons, hc], hab.2.1, hab.2.2⟩
    · have hc' : contains u'.notes (MARKER ++ k) = false := by
        rw [hab.2.1]; simpa using hc
      simp only [Bool.not_eq_true] at hc
      have h1 : firstHolder k us' = some t' := by
        simpa [firstHolder, List.find?_cons, hc'] using ht'
      obtain ⟨t, h2, h3⟩ := ih h1
      exact ⟨t, by simpa [firstHolder, List.find?_cons, hc] using h2, h3⟩

theorem firstHolder_append {k : Str} {todos added : List Task} {t t' : Task}
    (h : firstHolder k todos = some t) (h' : firstHolder k (todos ++ added) = some t') :
    t' = t := by
  unfold firstHolder at h h'
  rw [List.find?_append, h] at h'
  simpa using h'.symm

theorem firstHolder_isSome {k : Str} {todos : List Task} {u : Task} (hu : u ∈ todos)
    (hc : contains u.notes (MARKER ++ k) = true) : ∃ t, firstHolder k todos = some t := by
  cases h : firstHolder k todos with
  | some t => exact ⟨t, rfl⟩
  | none =>
    unfold firstHolder at h
    have := List.find?_eq_none.mp h u hu
    exact absurd hc this

theorem openKeys_completeScript_first (jiraKey : Str) (todos : List Task) {x : Str}
    (hx : x ∈ openKeysScript todos)
    (h : ∀ t, firstHolder jiraKey todos = some t →
      t.completed = true ∨ extractKey t.notes ≠ some x) :
    x ∈ openKeysScript (completeScript jiraKey todos).1 := by
  induction todos with
  | nil => exact hx
  | cons u us ih =>
    obtain ⟨w, hw, hwc, hwe⟩ := mem_openKeysScript.mp hx
    by_cases hc : contains u.notes (MARKER ++ jiraKey) = true
    · have hf : firstHolder jiraKey (u :: us) = some u := by
        simp [firstHolder, List.find?_cons, hc]
      simp only [completeScript, hc, if_true]
      have hwu : w ≠ u := by
        rintro rfl
        rcases h w hf with h1 | h1
        · rw [h1] at hwc; exact absurd hwc (by decide)
        · exact h1 hwe
      rcases List.mem_cons.mp hw with h1 | h1
      · exact absurd h1 hwu
      · exact mem_openKeysScript.mpr ⟨w, List.mem_cons_of_mem _ h1, hwc, hwe⟩
    · simp only [Bool.not_eq_true] at hc
      simp only [completeScript, hc, Bool.false_eq_true, if_false]
      rcases List.mem_cons.mp hw with h1 | h1
      · exact mem_openKeysScript.mpr ⟨w, by rw [h1]; simp, hwc, hwe⟩
      · have hxs : x ∈ openKeysScript us := mem_openKeysScript.mpr ⟨w, h1, hwc, hwe⟩
        have := ih hxs (fun t ht => h t (by
          simpa [firstHolder, List.find?_cons, hc] using ht))
        obtain ⟨w', hw', hwc', hwe'⟩ := mem_openKeysScript.mp this
        exact mem_openKeysScript.mpr ⟨w', List.mem_cons_of_mem _ hw', hwc', hwe'⟩

/-- The second loop keeps a key open when the first holder of every key it
handles was already completed or carries another key. -/
theorem foldl_staleStep_keeps (current : List Str) (keys : List Str)
    (start todos : List Task) (hadv : Advanced start todos) {x : Str}
    (hx : x ∈ openKeysScript todos)
    (h : ∀ k ∈ keys, k ∉ current → ∀ t, firstHolder k start = some t →
      t.completed = true ∨ extractKey t.notes ≠ some x) :
    x ∈ openKeysScript (keys.foldl (staleStep current) todos) := by
  induction keys generalizing todos with
  | nil => exact hx
  | cons k0 ks ih =>
    rw [List.foldl_cons]
    apply ih _ (hadv.trans (staleStep_advanced current todos k0))
    · unfold staleStep
      split
      · exact hx
      · rename_i hc
        apply openKeys_completeScript_first _ _ hx
        intro t' ht'
        obtain ⟨t, h1, h2, h3⟩ := firstHolder_advanced hadv k0 ht'
        rcases h k0 (by simp) hc t h1 with h4 | h4
        · exact Or.inl (h3 h4)
        · exact Or.inr (by rw [h2]; exact h4)
    · exact fun k hk => h k (List.mem_cons_of_mem _ hk)

theorem pullTodos_covers (nl : Bool) (order : List Str → List Str) (config : Config)
    (issues : List Issue) (todos : List Task)
    (hOrder : ∀ l, (order l).Perm l)
    (hE : ∀ x, x ∈ parseKeys (osascriptList nl (openKeysScript todos)) ↔
      x ∈ openKeysScript todos)
    (hNew : ∀ i ∈ issues, i.key ∉ openKeysScript todos →
      contains (issueNotes config i) MARKER = false ∧
      ∀ t ∈ todos, contains t.notes (MARKER ++ i.key) = false)
    (hPre : issues.Pairwise (fun j i => j.key ∉ openKeysScript todos →
      i.key ∉ openKeysScript todos → i.key <+: j.key → i.key = j.key))
    (hStale : ∀ s ∈ openKeysScript todos, s ∉ issues.map Issue.key →
      ∀ t, firstHolder s todos = some t →
        t.completed = true ∨ ∀ i ∈ issues, extractKey t.notes ≠ some i.key) :
    ∀ i ∈ issues, i.key ∈ openKeysScript (pullTodos nl order config issues todos) := by
  have hfirst := foldl_createStep_open config _ todos hE issues [] (by simp) hNew hPre
  rw [List.append_nil] at hfirst
  obtain ⟨added, hshape, _⟩ := foldl_createStep_shape config
    (parseKeys (osascriptList nl (openKeysScript todos))) issues todos
  intro i hi
  show i.key ∈ openKeysScript (List.foldl _ (List.foldl _ todos issues) _)
  apply foldl_staleStep_keeps _ _ _ _ (Advanced.refl _) (hfirst i hi)
  intro k hk hkR t' ht'
  have hkE : k ∈ openKeysScript todos :=
    (hE k).mp (List.mem_dedup.mp ((hOrder _).mem_iff.mp hk))
  obtain ⟨u, hu, _, hue⟩ := mem_openKeysScript.mp hkE
  obtain ⟨t, ht⟩ := firstHolder_isSome hu (contains_iff.mpr (infix_of_extractKey hue))
  rw [hshape] at ht'
  have := firstHolder_append ht ht'
  subst this
  rcases hStale k hkE hkR t' ht with h1 | h1
  · exact Or.inl h1
  · exact Or.inr (h1 i hi)

end Jira2Things

namespace Jira2Things

set_option maxRecDepth 200000 in
/-- C1, as stated, fails when the to-do of a listed issue is already completed:
the existence check of `createThingsTodo` finds its annotation, nothing is
created, and `PROJ-1` is read from no to-do that is not completed. -/
theorem listed_issue_without_open_todo :
    (syncJiraToThings (noFail true) id demoConfig [demoIssue "PROJ-1", demoIssue "PROJ-7"]
      (localWorld [⟨"a".toList, "JIRA-ID: PROJ-1".toList, true⟩,
        ⟨"b".toList, "JIRA-ID: PROJ-7".toList, false⟩])).1 = none ∧
    (syncJiraToThings (noFail true) id demoConfig [demoIssue "PROJ-1", demoIssue "PROJ-7"]
      (localWorld [⟨"a".toList, "JIRA-ID: PROJ-1".toList, true⟩,
        ⟨"b".toList, "JIRA-ID: PROJ-7".toList, false⟩])).2.todos =
      [⟨"a".toList, "JIRA-ID: PROJ-1".toList, true⟩,
       ⟨"b".toList, "JIRA-ID: PROJ-7".toList, false⟩] ∧
    "PROJ-1".toList ∈ [demoIssue "PROJ-1", demoIssue "PROJ-7"].map Issue.key ∧
    "PROJ-1".toList ∉ openKeysScript
      (syncJiraToThings (noFail true) id demoConfig [demoIssue "PROJ-1", demoIssue "PROJ-7"]
        (localWorld [⟨"a".toList, "JIRA-ID: PROJ-1".toList, true⟩,
          ⟨"b".toList, "JIRA-ID: PROJ-7".toList, false⟩])).2.todos := by
  decide

set_option maxRecDepth 200000 in
/-- Further lists on which a listed issue ends without an open to-do.  The
notes of another to-do contain the annotation of `PROJ-1`; the description of
the issue quotes a marker; the notes of the to-do end with a line feed, so the
key read from it is not the listed one; `PROJ-12` is listed in front of
`PROJ-1` and neither has a to-do; the completion script for the stale `PROJ-1`
completes the to-do of the listed `PROJ-12`; the reply for the one key
`"PROJ-5, PROJ-1"` is split into two keys, so `PROJ-1` counts as present. -/
theorem listed_issue_without_open_todo_more :
    "PROJ-1".toList ∉ openKeysScript
      (syncJiraToThings (noFail true) id demoConfig [demoIssue "PROJ-12", demoIssue "PROJ-1"]
        (localWorld [⟨"a".toList, "JIRA-ID: PROJ-12".toList, false⟩])).2.todos ∧
    "PROJ-1".toList ∉ openKeysScript
      (syncJiraToThings (noFail true) id demoConfig [demoIssue "PROJ-7", quotingIssue]
        (localWorld [⟨"a".toList, "JIRA-ID: PROJ-7".toList, false⟩])).2.todos ∧
    "PROJ-1".toList ∉ openKeysScript
      (syncJiraToThings (noFail true) id demoConfig [demoIssue "PROJ-1", demoIssue "PROJ-2"]
        (localWorld [⟨"a".toList, "JIRA-ID: PROJ-1\n".toList, false⟩,
          ⟨"b".toList, "JIRA-ID: PROJ-2".toList, false⟩])).2.todos ∧
    "PROJ-1".toList ∉ openKeysScript
      (syncJiraToThings (noFail true) id demoConfig
        [demoIssue "PROJ-7", demoIssue "PROJ-12", demoIssue "PROJ-1"]
        (localWorld [⟨"a".toList, "JIRA-ID: PROJ-7".toList, false⟩])).2.todos ∧
    "PROJ-12".toList ∉ openKeysScript
      (syncJiraToThings (noFail true) id demoConfig [demoIssue "PROJ-12"]
        (localWorld [⟨"a".toList, "JIRA-ID: PROJ-12".toList, false⟩,
          ⟨"b".toList, "JIRA-ID: PROJ-1".toList, false⟩])).2.todos ∧
    "PROJ-1".toList ∉ openKeysScript
      (syncJiraToThings (noFail true) id demoConfig [demoIssue "PROJ-1"]
        (localWorld [⟨"a".toList, "JIRA-ID: PROJ-5, PROJ-1".toList, false⟩])).2.todos := by
  decide

/-- C1 (amended): suppose the keys that the reply to the listing of open keys
gives, trimmed and split at `", "`, are the keys read from the to-dos that are
not completed (so it is when these keys are not empty and free of white space,
and the reply is not a lone line feed).  Suppose that for every listed key that is read
from no to-do that is not completed, the notes built for its issue do not
contain `"JIRA-ID: "`, the notes of no to-do contain `"JIRA-ID: " ++ key`, and the
key is not a proper prefix of the key of an issue listed in front of it that
has no such to-do either.  Suppose that for every stale key (read from a to-do
that is not completed, not listed) the first to-do whose notes contain its
annotation is already completed or carries no listed key.  Then with no
failing call, after `syncJiraToThings` every listed key is among the keys read
from the to-dos that are not completed. -/
theorem pull_covers_listed_issues (nl : Bool) (order : List Str → List Str)
    (config : Config) (issues : List Issue) (w : World)
    (hOrder : ∀ l, (order l).Perm l)
    (hReply : ∀ x, x ∈ existingJiraKeys (noFail nl) w ↔ x ∈ openKeysScript w.todos)
    (hNew : ∀ i ∈ issues, i.key ∉ openKeysScript w.todos →
      contains (issueNotes config i) MARKER = false ∧
      ∀ t ∈ w.todos, contains t.notes (MARKER ++ i.key) = false)
    (hPre : issues.Pairwise (fun j i => j.key ∉ openKeysScript w.todos →
      i.key ∉ openKeysScript w.todos → i.key <+: j.key → i.key = j.key))
    (hStale : ∀ s ∈ openKeysScript w.todos, s ∉ issues.map Issue.key →
      ∀ t ∈ firstHolder s w.todos,
        t.completed = true ∨ ∀ i ∈ issues, extractKey t.notes ≠ some i.key) :
    (syncJiraToThings (noFail nl) order config issues w).1 = none ∧
    ∀ i ∈ issues,
      i.key ∈ openKeysScript (syncJiraToThings (noFail nl) order config issues w).2.todos := by
  refine ⟨(syncJiraToThings_noFail nl order config issues w).1, ?_⟩
  rw [(syncJiraToThings_noFail nl order config issues w).2]
  exact pullTodos_covers nl order config issues w.todos hOrder hReply hNew hPre
    (fun s hs hsR t ht => hStale s hs hsR t ht)

set_option maxRecDepth 200000 in
theorem pull_covers_listed_issues_witness :
    "PROJ-20".toList ∈ openKeysScript
      (syncJiraToThings (noFail true) List.reverse demoConfig
        [demoIssue "PROJ-12", demoIssue "PROJ-2", demoIssue "PROJ-20", demoIssue "PROJ-1"]
        (localWorld [⟨"s".toList, "JIRA-ID: PROJ-3".toList, false⟩,
          ⟨"t".toList, "x\n\nJIRA-ID: PROJ-12".toList, false⟩,
          ⟨"u".toList, "JIRA-ID: PROJ-9".toList, true⟩,
          ⟨"v".toList, "JIRA-ID: PROJ-1".toList, false⟩,
          ⟨"x".toList, "JIRA-ID: PROJ-1".toList, true⟩])).2.todos :=
  (pull_covers_listed_issues true List.reverse demoConfig
    [demoIssue "PROJ-12", demoIssue "PROJ-2", demoIssue "PROJ-20", demoIssue "PROJ-1"]
    (localWorld [⟨"s".toList, "JIRA-ID: PROJ-3".toList, false⟩,
      ⟨"t".toList, "x\n\nJIRA-ID: PROJ-12".toList, false⟩,
      ⟨"u".toList, "JIRA-ID: PROJ-9".toList, true⟩,
      ⟨"v".toList, "JIRA-ID: PROJ-1".toList, false⟩,
      ⟨"x".toList, "JIRA-ID: PROJ-1".toList, true⟩])
    (fun l => List.reverse_perm l)
    (fun _ => (show existingJiraKeys (noFail true)
      (localWorld [⟨"s".toList, "JIRA-ID: PROJ-3".toList, false⟩,
        ⟨"t".toList, "x\n\nJIRA-ID: PROJ-12".toList, false⟩,
        ⟨"u".toList, "JIRA-ID: PROJ-9".toList, true⟩,
        ⟨"v".toList, "JIRA-ID: PROJ-1".toList, false⟩,
        ⟨"x".toList, "JIRA-ID: PROJ-1".toList, true⟩]) =
      ["PROJ-3".toList, "PROJ-12".toList, "PROJ-1".toList] by decide) ▸ Iff.rfl)
    (by decide) (by decide) (by decide)).2 (demoIssue "PROJ-20") (by decide)

end Jira2Things

namespace Jira2Things

/-! ## The task-creation URL -/

theorem splitLoop_ne_nil (sep : Str) (n : Nat) (s : Str) : splitLoop sep n s ≠ [] := by
  cases n with
  | zero => simp [splitLoop]
  | succ n =>
    cases h : cut sep s with
    | none => simp [splitLoop, h]
    | some r => simp [splitLoop, h]

theorem split_ne_nil (s sep : Str) : split s sep ≠ [] := splitLoop_ne_nil sep _ s

theorem join_nil_cons (l : List Str) (hl : l ≠ []) (new : Str) :
    join ([] :: l) new = new ++ join l new := by
  cases l with
  | nil => exact absurd rfl hl
  | cons a l => simp [join]

theorem join_cons_cons (x : Char) (a : Str) (l : List Str) (new : Str) :
    join ((x :: a) :: l) new = x :: join (a :: l) new := by
  cases l with
  | nil => simp [join]
  | cons b l => simp [join]

theorem cut_single_cons_self (c : Char) (xs : Str) : cut [c] (c :: xs) = some ([], xs) := by
  simp [cut, List.isPrefixOf]

theorem cut_single_cons_ne {c x : Char} (h : x ≠ c) (xs : Str) :
    cut [c] (x :: xs) = (cut [c] xs).map (fun r => (x :: r.1, r.2)) := by
  have : ([c] : Str).isPrefixOf (x :: xs) = false := by
    simp [List.isPrefixOf, Ne.symm h]
  simp [cut, this]

/-- Replacing a single character: every occurrence is replaced. -/
theorem replaceAll_single (s : Str) (c : Char) (new : Str) :
    replaceAll s [c] new = s.flatMap (fun x => if x = c then new else [x]) := by
  unfold replaceAll
  induction s with
  | nil =>
    have : cut [c] [] = none := by simp [cut]
    rw [split_of_cut_none this]
    simp [join]
  | cons x xs ih =>
    by_cases hx : x = c
    · subst hx
      rw [split_of_cut_some (by simp) (cut_single_cons_self x xs),
        join_nil_cons _ (split_ne_nil _ _), ih]
      simp [List.flatMap_cons]
    · cases hc : cut [c] xs with
      | none =>
        have h1 : cut [c] (x :: xs) = none := by rw [cut_single_cons_ne hx, hc]; rfl
        rw [split_of_cut_none hc] at ih
        rw [split_of_cut_none h1]
        simp only [join] at ih ⊢
        simp [List.flatMap_cons, hx, ← ih]
      | some r =>
        obtain ⟨a, b⟩ := r
        have h1 : cut [c] (x :: xs) = some (x :: a, b) := by
          rw [cut_single_cons_ne hx, hc]; rfl
        rw [split_of_cut_some (by simp) hc] at ih
        rw [split_of_cut_some (by simp) h1, join_cons_cons, ih]
        simp [List.flatMap_cons, hx]

theorem replaceAll_plus (s : Str) :
    replaceAll s ['+'] "%20".toList = s.flatMap plusTo20 :=
  replaceAll_single s '+' "%20".toList

theorem plus_not_mem_flatMap_plusTo20 (s : Str) : '+' ∉ s.flatMap plusTo20 := by
  intro h
  obtain ⟨c, _, hc⟩ := List.mem_flatMap.mp h
  unfold plusTo20 at hc
  split at hc
  · exact absurd hc (by decide)
  · rename_i hne
    simp only [List.mem_singleton] at hc
    exact hne hc.symm

/-- The encoded parameters of `createThingsTodo`, keys sorted. -/
theorem valuesEncode_params (title notes project : Str) :
    valuesEncode [("title".toList, title), ("notes".toList, notes), ("list".toList, project)]
      = "list=".toList ++ queryEscape project ++ ("&notes=".toList ++ queryEscape notes ++
          ("&title=".toList ++ queryEscape title)) := by
  have h1 : queryEscape "title".toList = "title".toList := by decide
  have h2 : queryEscape "notes".toList = "notes".toList := by decide
  have h3 : queryEscape "list".toList = "list".toList := by decide
  have hs : List.insertionSort (fun a b : Str × Str => strLE a.1 b.1 = true)
      [("title".toList, title), ("notes".toList, notes), ("list".toList, project)] =
      [("list".toList, project), ("notes".toList, notes), ("title".toList, title)] := by
    have e1 : strLE "notes".toList "list".toList = false := by decide
    have e2 : strLE "list".toList "notes".toList = true := by decide
    have e3 : strLE "title".toList "list".toList = false := by decide
    have e4 : strLE "title".toList "notes".toList = false := by decide
    simp only [List.insertionSort, List.orderedInsert, e1, e2, e3, e4, if_true, if_false,
      Bool.false_eq_true]
  unfold valuesEncode
  rw [hs]
  simp only [List.map, join, h1, h2, h3]
  simp [List.append_assoc]

end Jira2Things

namespace Jira2Things

theorem utf8Bytes_lt (c : Char) : ∀ b ∈ utf8Bytes c, b < 256 := by
  have hv : c.toNat < 0x110000 := by
    have := c.valid
    simp only [UInt32.isValidChar, Nat.isValidChar] at this
    show c.val.toNat < 0x110000
    omega
  intro b hb
  unfold utf8Bytes at hb
  split at hb
  · simp only [List.mem_singleton] at hb; omega
  · split at hb
    · simp only [List.mem_cons, List.mem_singleton, List.not_mem_nil, or_false] at hb
      omega
    · split at hb
      · simp only [List.mem_cons, List.mem_singleton, List.not_mem_nil, or_false] at hb
        omega
      · simp only [List.mem_cons, List.mem_singleton, List.not_mem_nil, or_false] at hb
        omega

theorem goBytes_lt (s : Str) : ∀ b ∈ goBytes s, b < 256 := by
  intro b hb
  obtain ⟨c, _, hc⟩ := List.mem_flatMap.mp hb
  exact utf8Bytes_lt c b hc

theorem upperhex_facts : ∀ n < 16,
    unhex (upperhex n) = some n ∧ upperhex n ≠ '+' ∧ upperhex n ≠ '&' := by
  decide

set_option maxRecDepth 100000 in
theorem unescaped_facts : ∀ b < 128, shouldEscape b = false →
    Char.ofNat b ≠ '+' ∧ Char.ofNat b ≠ '%' ∧ Char.ofNat b ≠ '&' ∧
      utf8Bytes (Char.ofNat b) = [b] := by
  decide

theorem lt_of_shouldEscape_false {b : Nat} (h : shouldEscape b = false) : b < 128 := by
  simp only [shouldEscape, Bool.not_eq_false', Bool.or_eq_true, Bool.and_eq_true,
    decide_eq_true_eq] at h
  omega

/-- What stands in the URL for one byte, after `+` has become `%20`. -/
theorem escapeByte_plusTo20 (b : Nat) (hb : b < 256) :
    (∃ x y h l, (escapeByte b).flatMap plusTo20 = ['%', x, y] ∧ unhex x = some h ∧
      unhex y = some l ∧ h * 16 + l = b ∧ x ≠ '&' ∧ y ≠ '&') ∨
    (∃ c, (escapeByte b).flatMap plusTo20 = [c] ∧ c ≠ '%' ∧ c ≠ '&' ∧ utf8Bytes c = [b]) := by
  unfold escapeByte
  by_cases h32 : b = 32
  · left
    subst h32
    exact ⟨'2', '0', 2, 0, by decide, by decide, by decide, by decide, by decide, by decide⟩
  · rw [if_neg h32]
    by_cases hs : shouldEscape b = true
    · left
      rw [if_pos hs]
      have h1 := upperhex_facts (b / 16) (by omega)
      have h2 := upperhex_facts (b % 16) (by omega)
      refine ⟨upperhex (b / 16), upperhex (b % 16), b / 16, b % 16, ?_, h1.1, h2.1,
        by omega, h1.2.2, h2.2.2⟩
      have e0 : plusTo20 '%' = ['%'] := by decide
      have e1 : plusTo20 (upperhex (b / 16)) = [upperhex (b / 16)] := by
        simp [plusTo20, h1.2.1]
      have e2 : plusTo20 (upperhex (b % 16)) = [upperhex (b % 16)] := by
        simp [plusTo20, h2.2.1]
      simp [List.flatMap_cons, e0, e1, e2]
    · right
      rw [if_neg hs]
      simp only [Bool.not_eq_true] at hs
      have h := unescaped_facts b (lt_of_shouldEscape_false hs) hs
      refine ⟨Char.ofNat b, ?_, h.2.1, h.2.2.1, h.2.2.2⟩
      simp [List.flatMap_cons, plusTo20, h.1]

theorem percentDecode_percent (x y : Char) (rest : Str) :
    percentDecode ('%' :: x :: y :: rest) =
      match unhex x, unhex y, percentDecode rest with
      | some h, some l, some bs => some ((h * 16 + l) :: bs)
      | _, _, _ => none := by
  rw [percentDecode]
  simp

theorem percentDecode_literal {c : Char} (hc : c ≠ '%') (rest : Str) :
    percentDecode (c :: rest) = (percentDecode rest).map (fun bs => utf8Bytes c ++ bs) := by
  cases rest with
  | nil => simp [percentDecode, hc]
  | cons x rest =>
    cases rest with
    | nil => simp [percentDecode, hc]
    | cons y rest => simp [percentDecode, hc]

theorem percentDecode_escapeByte (b : Nat) (hb : b < 256) (rest : Str) :
    percentDecode ((escapeByte b).flatMap plusTo20 ++ rest) =
      (percentDecode rest).map (fun bs => b :: bs) := by
  rcases escapeByte_plusTo20 b hb with ⟨x, y, h, l, e, hx, hy, hb2, _, _⟩ | ⟨c, e, hc, _, hu⟩
  · rw [e]
    show percentDecode ('%' :: x :: y :: rest) = _
    rw [percentDecode_percent, hx, hy]
    cases percentDecode rest with
    | none => rfl
    | some bs => simp [hb2]
  · rw [e]
    show percentDecode (c :: rest) = _
    rw [percentDecode_literal hc, hu]
    rfl

theorem percentDecode_bytes (bs : List Nat) (h : ∀ b ∈ bs, b < 256) :
    percentDecode (bs.flatMap (fun b => (escapeByte b).flatMap plusTo20)) = some bs := by
  induction bs with
  | nil => rfl
  | cons b bs ih =>
    rw [List.flatMap_cons, percentDecode_escapeByte b (h b (by simp)),
      ih (fun x hx => h x (List.mem_cons_of_mem _ hx))]
    rfl

theorem flatMap_queryEscape (s : Str) :
    (queryEscape s).flatMap plusTo20 =
      (goBytes s).flatMap (fun b => (escapeByte b).flatMap plusTo20) := by
  unfold queryEscape
  rw [List.flatMap_assoc]

/-- Decoding an escaped value gives back the bytes of the value. -/
theorem percentDecode_queryEscape (s : Str) :
    percentDecode ((queryEscape s).flatMap plusTo20) = some (goBytes s) := by
  rw [flatMap_queryEscape]
  exact percentDecode_bytes _ (goBytes_lt s)

theorem amp_not_mem_queryEscape (s : Str) : '&' ∉ (queryEscape s).flatMap plusTo20 := by
  rw [flatMap_queryEscape]
  intro h
  obtain ⟨b, hb, hc⟩ := List.mem_flatMap.mp h
  rcases escapeByte_plusTo20 b (goBytes_lt s b hb) with
    ⟨x, y, _, _, e, _, _, _, hx, hy⟩ | ⟨c, e, _, hc2, _⟩
  · rw [e] at hc
    simp only [List.mem_cons, List.mem_singleton, List.not_mem_nil, or_false] at hc
    rcases hc with hc | hc | hc
    · exact absurd hc (by decide)
    · exact hx hc.symm
    · exact hy hc.symm
  · rw [e] at hc
    simp only [List.mem_singleton] at hc
    exact hc2 hc.symm

end Jira2Things

namespace Jira2Things

theorem cut_amp {k r : Str} (hk : '&' ∉ k) : cut ['&'] (k ++ '&' :: r) = some (k, r) := by
  have := cut_after_clean (p := []) (c := '&') (k := k) (r := r) (by simp) hk
  simpa using this

theorem split_three {a b c : Str} (ha : '&' ∉ a) (hb : '&' ∉ b) (hc : '&' ∉ c) :
    split (a ++ '&' :: (b ++ '&' :: c)) ['&'] = [a, b, c] := by
  rw [split_of_cut_some (by simp) (cut_amp ha), split_of_cut_some (by simp) (cut_amp hb),
    split_of_cut_none (cut_none_of_not_mem (c := '&') (by simp) hc)]

/-- The query of the URL, after `+` has become `%20`. -/
theorem thingsURL_eq (title notes jiraKey project : Str) :
    thingsURL title notes jiraKey project =
      "things:///add?".toList ++
        (("list=".toList ++ (queryEscape project).flatMap plusTo20) ++ '&' ::
          (("notes=".toList ++ (queryEscape (annotate notes jiraKey)).flatMap plusTo20) ++
            '&' :: ("title=".toList ++ (queryEscape title).flatMap plusTo20))) := by
  unfold thingsURL
  rw [valuesEncode_params, replaceAll_plus]
  have e1 : "list=".toList.flatMap plusTo20 = "list=".toList := by decide
  have e2 : "&notes=".toList.flatMap plusTo20 = '&' :: "notes=".toList := by decide
  have e3 : "&title=".toList.flatMap plusTo20 = '&' :: "title=".toList := by decide
  simp only [List.flatMap_append, e1, e2, e3]
  simp [List.append_assoc]

/-- C10: the URL built by `createThingsTodo` holds no `+`, starts with
`things:///add?`, and percent-decoding the values of its parameters `title`,
`notes` and `list` gives the bytes of the title, of the annotated notes and of
the list name. -/
theorem things_url_lossless (title notes jiraKey project : Str) :
    '+' ∉ thingsURL title notes jiraKey project ∧
    "things:///add?".toList <+: thingsURL title notes jiraKey project ∧
    (queryParam "title".toList ((thingsURL title notes jiraKey project).drop
      "things:///add?".toList.length)).bind percentDecode = some (goBytes title) ∧
    (queryParam "notes".toList ((thingsURL title notes jiraKey project).drop
      "things:///add?".toList.length)).bind percentDecode =
        some (goBytes (annotate notes jiraKey)) ∧
    (queryParam "list".toList ((thingsURL title notes jiraKey project).drop
      "things:///add?".toList.length)).bind percentDecode = some (goBytes project) := by
  have hplus : '+' ∉ thingsURL title notes jiraKey project := by
    unfold thingsURL
    rw [replaceAll_plus]
    intro h
    rcases List.mem_append.mp h with h | h
    · exact absurd h (by decide)
    · exact plus_not_mem_flatMap_plusTo20 _ h
  have h1 : '&' ∉ "list=".toList ++ (queryEscape project).flatMap plusTo20 := by
    intro h
    rcases List.mem_append.mp h with h | h
    · exact absurd h (by decide)
    · exact amp_not_mem_queryEscape _ h
  have h2 : '&' ∉ "notes=".toList ++
      (queryEscape (annotate notes jiraKey)).flatMap plusTo20 := by
    intro h
    rcases List.mem_append.mp h with h | h
    · exact absurd h (by decide)
    · exact amp_not_mem_queryEscape _ h
  have h3 : '&' ∉ "title=".toList ++ (queryEscape title).flatMap plusTo20 := by
    intro h
    rcases List.mem_append.mp h with h | h
    · exact absurd h (by decide)
    · exact amp_not_mem_queryEscape _ h
  refine ⟨hplus, ?_, ?_, ?_, ?_⟩
  · unfold thingsURL
    exact List.prefix_append _ _
  all_goals
    rw [thingsURL_eq, List.drop_left]
    unfold queryParam
    rw [split_three h1 h2 h3]
  · have p1 : ("title".toList ++ ['=']).isPrefixOf
        ("list=".toList ++ (queryEscape project).flatMap plusTo20) = false := by
      simp [List.isPrefixOf]
    have p2 : ("title".toList ++ ['=']).isPrefixOf
        ("notes=".toList ++ (queryEscape (annotate notes jiraKey)).flatMap plusTo20)
        = false := by
      simp [List.isPrefixOf]
    have p3 : ("title".toList ++ ['=']).isPrefixOf
        ("title=".toList ++ (queryEscape title).flatMap plusTo20) = true := by
      simp [List.isPrefixOf]
    simp only [List.find?, p1, p2, p3, Option.map_some', Option.some_bind]
    exact percentDecode_queryEscape title
  · have p1 : ("notes".toList ++ ['=']).isPrefixOf
        ("list=".toList ++ (queryEscape project).flatMap plusTo20) = false := by
      simp [List.isPrefixOf]
    have p2 : ("notes".toList ++ ['=']).isPrefixOf
        ("notes=".toList ++ (queryEscape (annotate notes jiraKey)).flatMap plusTo20)
        = true := by
      simp [List.isPrefixOf]
    simp only [List.find?, p1, p2, Option.map_some', Option.some_bind]
    exact percentDecode_queryEscape (annotate notes jiraKey)
  · have p1 : ("list".toList ++ ['=']).isPrefixOf
        ("list=".toList ++ (queryEscape project).flatMap plusTo20) = true := by
      simp [List.isPrefixOf]
    simp only [List.find?, p1, Option.map_some', Option.some_bind]
    exact percentDecode_queryEscape project

end Jira2Things
